import Mathlib

/-!
# SMA crossover backtest: a shallow embedding of `SMA.cpp`

Modelling conventions.

* `long double` values are rationals, and every definition that computes with them
  comes in two forms. The exact form (`computeMA`, `tradeStep`, `backtest`, ...)
  uses the exact rational operations: it is the program in exact arithmetic. The
  rounded form (`computeMAR`, `tradeStepR`, `backtestR`, ...) passes the result of
  every operation through a rounding function `rnd`, as the hardware does;
  `rnd = id` gives back the exact form and `rnd = longDouble` is the x87 format.
  Statements said to hold in exact arithmetic are about the exact form; statements
  about the rounded form hold for every `rnd`. Division by zero, which yields an
  infinity or a NaN in the program, is `0` in `ℚ`; the statements below that depend
  on a quotient assume a window of at least one and a positive price.
* `std::vector` is `List`; `v[i]` is `List.getD v i d` (an out-of-range read is
  undefined in the program and reads the default `d` here), `v.back()` is
  `List.getLastD`.
* `int` values are `Int`. Sequence lengths are assumed to fit in an `int`, so the
  loop counters never wrap and, for windows of at least one, the index arithmetic
  `i - (window - 1)` does not overflow. A comparison of an `int` with a `size_t`
  converts the `int` to unsigned: a negative `int` is then larger than every
  length.
* `for` loops whose counter is only changed by the increment are folds over the
  list of counter values.
-/

namespace SMA

/-- The `action` field of a trade record: `buy` is the text "買入", `sell` is
"賣出" and `finalLiquidation` is "期末賣出" in the program. -/
inductive Action where
  | buy
  | sell
  | finalLiquidation
  deriving DecidableEq, Repr

/-- Record of one simulated transaction (`struct TradeRecord`). -/
structure TradeRecord where
  date : String
  action : Action
  price : ℚ
  shares : ℚ
  cashAfter : ℚ
  deriving DecidableEq

/-- Outcome of one simulation (`struct TradeResult`). -/
structure TradeResult where
  shortMA : Int
  longMA : Int
  finalValue : ℚ
  returnRate : ℚ
  tradeCount : Nat
  trades : List TradeRecord
  deriving DecidableEq

/-- Body of the second loop of `computeMA`: the running sum takes in `closes[i]`,
drops `closes[i - window]`, and the new mean is pushed. The state is the pair
`(sum, ma)`. -/
def maStep (closes : List ℚ) (window : Int) (st : ℚ × List ℚ) (i : Nat) : ℚ × List ℚ :=
  let sum1 := st.1 + closes.getD i 0
  let sum2 := sum1 - closes.getD (i - window.toNat) 0
  (sum2, st.2 ++ [sum2 / (window : ℚ)])

/-- Simple moving average (`computeMA`), in exact arithmetic (`computeMAR` is the
same code with rounded operations). The guard `closes.size() < window` compares as
unsigned, so a negative window returns the empty series as well. -/
def computeMA (closes : List ℚ) (window : Int) : List ℚ :=
  if window < 0 ∨ (closes.length : Int) < window then []
  else
    let sum0 := (List.range window.toNat).foldl (fun s i => s + closes.getD i 0) 0
    ((List.range' window.toNat (closes.length - window.toNat)).foldl
      (maStep closes window) (sum0, [sum0 / (window : ℚ)])).2

/-- The mean of the `window` consecutive prices starting at index `i`, computed
from scratch: the specification of one moving-average value. -/
def windowMean (closes : List ℚ) (window : Nat) (i : Nat) : ℚ :=
  ((closes.drop i).take window).sum / (window : ℚ)

/-- Largest value of a 32-bit `int`. -/
def INT_MAX : Int := 2147483647

/-- Smallest value of a 32-bit `int`. -/
def INT_MIN : Int := -2147483648

/-- Rounding toward zero, the value of a floating-to-integer conversion. -/
def truncate (x : ℚ) : Int :=
  if 0 ≤ x then ⌊x⌋ else ⌈x⌉

/-- The cast `(int)x`. When the truncated value does not fit in an `int` the
program's behaviour is undefined; the x86 conversion instructions then return
`INT_MIN`, which is the value taken here. Every statement below that depends on
the cast assumes that the truncated value fits. -/
def castInt (x : ℚ) : Int :=
  if INT_MIN ≤ truncate x ∧ truncate x ≤ INT_MAX then truncate x else INT_MIN

/-- The local variables of `backtest` that its loop updates: `cash`, `shares`,
`result.tradeCount` and `result.trades`. -/
structure SimState where
  cash : ℚ
  shares : ℚ
  tradeCount : Nat
  trades : List TradeRecord
  deriving DecidableEq

/-- The crossover branch of the loop body of `backtest` (the `if` / `else if` on
the golden cross and the death cross), given the date, the price and the four
averages read at the current index, in exact arithmetic (`tradeStepR` is the same
code with rounded operations). -/
def tradeStep (date : String) (currPrice prevShortMA prevLongMA currShortMA currLongMA : ℚ)
    (st : SimState) : SimState :=
  if prevShortMA ≤ prevLongMA ∧ currShortMA > currLongMA ∧ st.shares = 0 then
    let shares : ℚ := ((castInt (st.cash / currPrice) : Int) : ℚ)
    let cost := shares * currPrice
    let cash := st.cash - cost
    { cash := cash
      shares := shares
      tradeCount := st.tradeCount + 1
      trades := st.trades ++ [⟨date, Action.buy, currPrice, shares, cash⟩] }
  else if prevShortMA ≥ prevLongMA ∧ currShortMA < currLongMA ∧ st.shares > 0 then
    let revenue := st.shares * currPrice
    let cash := st.cash + revenue
    { cash := cash
      shares := 0
      tradeCount := st.tradeCount + 1
      trades := st.trades ++ [⟨date, Action.sell, currPrice, st.shares, cash⟩] }
  else st

/-- The two `continue` guards at the top of the loop body of `backtest`: `true`
when step `i` is skipped. -/
def skipStep (shortMA longMA : List ℚ) (shortMA_window longMA_window outputStartIdx : Int)
    (i : Nat) : Bool :=
  let shortMAIdx : Int := (i : Int) - (shortMA_window - 1)
  let longMAIdx : Int := (i : Int) - (longMA_window - 1)
  if shortMAIdx < 0 ∨ longMAIdx < 0 ∨
      shortMAIdx ≥ (shortMA.length : Int) ∨ longMAIdx ≥ (longMA.length : Int) then true
  else if (i : Int) = outputStartIdx ∨ shortMAIdx = 0 ∨ longMAIdx = 0 then true
  else false

/-- The values the loop body of `backtest` reads at step `i` once the guards
have passed: the two averages aligned to `i`, the two aligned to `i - 1`, and the
close price. -/
structure StepReads where
  currShortMA : ℚ
  currLongMA : ℚ
  prevShortMA : ℚ
  prevLongMA : ℚ
  currPrice : ℚ
  deriving DecidableEq

/-- The index arithmetic and the five reads of the loop body of `backtest`. -/
def stepReads (closes shortMA longMA : List ℚ) (shortMA_window longMA_window : Int)
    (i : Nat) : StepReads :=
  let shortMAIdx : Int := (i : Int) - (shortMA_window - 1)
  let longMAIdx : Int := (i : Int) - (longMA_window - 1)
  let prevShortMAIdx := shortMAIdx - 1
  let prevLongMAIdx := longMAIdx - 1
  { currShortMA := shortMA.getD shortMAIdx.toNat 0
    currLongMA := longMA.getD longMAIdx.toNat 0
    prevShortMA := shortMA.getD prevShortMAIdx.toNat 0
    prevLongMA := longMA.getD prevLongMAIdx.toNat 0
    currPrice := closes.getD i 0 }

/-- One iteration of the loop of `backtest` at counter value `i`. -/
def backtestStep (dates : List String) (closes shortMA longMA : List ℚ)
    (shortMA_window longMA_window outputStartIdx : Int) (st : SimState) (i : Nat) : SimState :=
  if skipStep shortMA longMA shortMA_window longMA_window outputStartIdx i then st
  else
    let r := stepReads closes shortMA longMA shortMA_window longMA_window i
    tradeStep (dates.getD i "") r.currPrice r.prevShortMA r.prevLongMA r.currShortMA
      r.currLongMA st

/-- The counter values of `for (int i = outputStartIdx; i < dates.size(); i++)`.
The comparison is unsigned, so a negative start runs no iteration. -/
def liveIndices (outputStartIdx : Int) (n : Nat) : List Nat :=
  if outputStartIdx < 0 then []
  else List.range' outputStartIdx.toNat (n - outputStartIdx.toNat)

/-- The state in which the loop of `backtest` starts: `cash = initialCash`,
`shares = 0`, no trade. -/
def initialState (initialCash : ℚ) : SimState :=
  { cash := initialCash, shares := 0, tradeCount := 0, trades := [] }

/-- The state of `backtest` when its loop ends. -/
def backtestLoop (dates : List String) (closes : List ℚ)
    (shortMA_window longMA_window : Int) (initialCash : ℚ) (outputStartIdx : Int) : SimState :=
  (liveIndices outputStartIdx dates.length).foldl
    (backtestStep dates closes (computeMA closes shortMA_window) (computeMA closes longMA_window)
      shortMA_window longMA_window outputStartIdx)
    (initialState initialCash)

/-- The final settlement of `backtest`, from the state the loop ends in. -/
def settle (dates : List String) (closes : List ℚ) (shortMA_window longMA_window : Int)
    (initialCash : ℚ) (st : SimState) : TradeResult :=
  if st.shares > 0 then
    let finalValue := st.cash + st.shares * closes.getLastD 0
    { shortMA := shortMA_window
      longMA := longMA_window
      finalValue := finalValue
      returnRate := ((finalValue - initialCash) / initialCash) * 100
      tradeCount := st.tradeCount + 1
      trades := st.trades ++
        [⟨dates.getLastD "", Action.finalLiquidation, closes.getLastD 0, st.shares, finalValue⟩] }
  else
    { shortMA := shortMA_window
      longMA := longMA_window
      finalValue := st.cash
      returnRate := ((st.cash - initialCash) / initialCash) * 100
      tradeCount := st.tradeCount
      trades := st.trades }

/-- The simulation of one window pair (`backtest`). `dataStartIdx` is not used
by the program either. -/
def backtest (dates : List String) (closes : List ℚ) (shortMA_window longMA_window : Int)
    (initialCash : ℚ) (dataStartIdx outputStartIdx : Int) : TradeResult :=
  settle dates closes shortMA_window longMA_window initialCash
    (backtestLoop dates closes shortMA_window longMA_window initialCash outputStartIdx)

/-- The sum of the `window` consecutive prices starting at index `i`. -/
def windowSum (closes : List ℚ) (window : Nat) (i : Nat) : ℚ :=
  ((closes.drop i).take window).sum

/-- The price series of the example scenario: a plateau at 10, one at 12, one
at 9. -/
def examplePrices : List ℚ := [10, 10, 10, 12, 12, 12, 9, 9, 9]

/-- Nine consecutive date labels for the example scenario. -/
def exampleDates : List String :=
  ["1/1/2024", "1/2/2024", "1/3/2024", "1/4/2024", "1/5/2024", "1/6/2024", "1/7/2024",
    "1/8/2024", "1/9/2024"]

/-- Every record the loop appends is a buy or a sell made at an evaluated index
`i` strictly after the live start, with the date and the price read in bounds. -/
def LoopRecord (dates : List String) (closes : List ℚ) (start : Int) (r : TradeRecord) : Prop :=
  (r.action = Action.buy ∨ r.action = Action.sell) ∧
  ∃ i : Nat, start < (i : Int) ∧ i < dates.length ∧
    dates[i]? = some r.date ∧ closes[i]? = some r.price

/-- A price series on which a golden cross finds less cash than one share
costs: the example scenario scaled by ten, followed by a return to 120. -/
def stalledPrices : List ℚ := [100, 100, 100, 120, 120, 120, 90, 90, 90, 120]

/-- Ten consecutive date labels for `stalledPrices`. -/
def stalledDates : List String :=
  ["1/1/2024", "1/2/2024", "1/3/2024", "1/4/2024", "1/5/2024", "1/6/2024", "1/7/2024",
    "1/8/2024", "1/9/2024", "1/10/2024"]

/-! ### The parameter sweep of `main`

The sweep is `main` from the date lookup to the sort. Reading the CSV file and
printing are not modelled: the loaded vectors `allDates` and `allCloses`, which the
loading loop fills together (one `push_back` on each per kept row), are inputs, and
so are the constants `startDate`, `endDate`, `initialCash`, `minMA` and `maxMA`. -/

/-- The counter values of a loop `for (int i = lo; i <= hi; i++)`, in order. The
comparison is between two `int`s; `hi` is assumed to be below the largest `int`. -/
def intRange (lo hi : Int) : List Int :=
  (List.range (hi + 1 - lo).toNat).map (fun (k : Nat) => lo + (k : Int))

/-- The date lookup of `main`: one pass over `allDates` that overwrites `startIdx`
and `endIdx` at every match, both starting at `-1`. -/
def findDateRange (allDates : List String) (startDate endDate : String) : Int × Int :=
  (List.range allDates.length).foldl
    (fun (p : Int × Int) i =>
      let startIdx := if allDates.getD i "" = startDate then (i : Int) else p.1
      let endIdx := if allDates.getD i "" = endDate then (i : Int) else p.2
      (startIdx, endIdx))
    (-1, -1)

/-- What `main` prepares for one window pair: the extracted vectors `dates` and
`closes`, `dataStartIdx` and `outputStartIdx`. -/
structure SweepSlice where
  dates : List String
  closes : List ℚ
  dataStartIdx : Int
  outputStartIdx : Int
  deriving DecidableEq

/-- The extraction of `main` for one window pair: `dataStartIdx` is
`max(0, startIdx - extraDays)`, the loop pushes `allDates[i]` and `allCloses[i]`
for `i` from `dataStartIdx` to `endIdx`, and `outputStartIdx` is
`startIdx - dataStartIdx`. -/
def extractSlice (allDates : List String) (allCloses : List ℚ) (startIdx endIdx : Int)
    (shortMA longMA : Int) : SweepSlice :=
  let longerPeriod := max shortMA longMA
  let extraDays := longerPeriod - 1
  let dataStartIdx := max 0 (startIdx - extraDays)
  { dates := (intRange dataStartIdx endIdx).map (fun i => allDates.getD i.toNat "")
    closes := (intRange dataStartIdx endIdx).map (fun i => allCloses.getD i.toNat 0)
    dataStartIdx := dataStartIdx
    outputStartIdx := startIdx - dataStartIdx }

/-- The body of the double loop of `main` for one window pair: extraction, then
the call of `backtest`. -/
def runCombination (allDates : List String) (allCloses : List ℚ) (initialCash : ℚ)
    (startIdx endIdx : Int) (shortMA longMA : Int) : TradeResult :=
  let sl := extractSlice allDates allCloses startIdx endIdx shortMA longMA
  backtest sl.dates sl.closes shortMA longMA initialCash sl.dataStartIdx sl.outputStartIdx

/-- The double loop of `main`: `allResults` after the last `push_back`, in the
order of the pushes (`shortMA` outer, `longMA` inner). -/
def collectResults (allDates : List String) (allCloses : List ℚ) (initialCash : ℚ)
    (startIdx endIdx : Int) (minMA maxMA : Int) : List TradeResult :=
  (intRange minMA maxMA).flatMap (fun shortMA =>
    (intRange minMA maxMA).map (fun longMA =>
      runCombination allDates allCloses initialCash startIdx endIdx shortMA longMA))

/-- The call `sort(allResults.begin(), allResults.end(), comp)` with the
comparator `a.finalValue > b.finalValue`. `std::sort` is library code; it is taken
here as insertion sort with the program's comparator. The order `std::sort` leaves
between results of equal final value is unspecified, and no statement below
depends on it. -/
def sortResults (allResults : List TradeResult) : List TradeResult :=
  List.insertionSort (fun a b : TradeResult => a.finalValue > b.finalValue) allResults

/-- The sweep of `main`: `Except.error 1` is the `return 1` taken when a date is
not found, before `allResults` exists; `Except.ok` carries the sorted
`allResults`. -/
def sweep (allDates : List String) (allCloses : List ℚ) (startDate endDate : String)
    (initialCash : ℚ) (minMA maxMA : Int) : Except Int (List TradeResult) :=
  let range := findDateRange allDates startDate endDate
  let startIdx := range.1
  let endIdx := range.2
  if startIdx = -1 ∨ endIdx = -1 then Except.error 1
  else
    Except.ok (sortResults
      (collectResults allDates allCloses initialCash startIdx endIdx minMA maxMA))

/-! ### Bounds-checked reads

A second copy of the loop body and of the settlement in which every indexed read
and every `back()` is checked: `none` stands for a read outside the vector, which
is undefined behaviour in the program. -/

/-- The read `v[idx]` with an `int` index: `none` when `idx` is negative or not
below the size. -/
def readAt {α : Type} (v : List α) (idx : Int) : Option α :=
  if 0 ≤ idx then v[idx.toNat]? else none

/-- The five reads of `stepReads`, checked. -/
def stepReadsChecked (closes shortMA longMA : List ℚ) (shortMA_window longMA_window : Int)
    (i : Nat) : Option StepReads :=
  let shortMAIdx : Int := (i : Int) - (shortMA_window - 1)
  let longMAIdx : Int := (i : Int) - (longMA_window - 1)
  let prevShortMAIdx := shortMAIdx - 1
  let prevLongMAIdx := longMAIdx - 1
  (readAt shortMA shortMAIdx).bind fun currShortMA =>
  (readAt longMA longMAIdx).bind fun currLongMA =>
  (readAt shortMA prevShortMAIdx).bind fun prevShortMA =>
  (readAt longMA prevLongMAIdx).bind fun prevLongMA =>
  (readAt closes (i : Int)).bind fun currPrice =>
  some { currShortMA := currShortMA
         currLongMA := currLongMA
         prevShortMA := prevShortMA
         prevLongMA := prevLongMA
         currPrice := currPrice }

/-- The crossover branch with the read `dates[i]`, which the program makes only
inside the buy branch and inside the sell branch, checked. -/
def tradeStepChecked (dates : List String) (i : Nat) (r : StepReads) (st : SimState) :
    Option SimState :=
  if r.prevShortMA ≤ r.prevLongMA ∧ r.currShortMA > r.currLongMA ∧ st.shares = 0 then
    (readAt dates (i : Int)).bind fun date =>
    let shares : ℚ := ((castInt (st.cash / r.currPrice) : Int) : ℚ)
    let cost := shares * r.currPrice
    let cash := st.cash - cost
    some { cash := cash
           shares := shares
           tradeCount := st.tradeCount + 1
           trades := st.trades ++ [⟨date, Action.buy, r.currPrice, shares, cash⟩] }
  else if r.prevShortMA ≥ r.prevLongMA ∧ r.currShortMA < r.currLongMA ∧ st.shares > 0 then
    (readAt dates (i : Int)).bind fun date =>
    let revenue := st.shares * r.currPrice
    let cash := st.cash + revenue
    some { cash := cash
           shares := 0
           tradeCount := st.tradeCount + 1
           trades := st.trades ++ [⟨date, Action.sell, r.currPrice, st.shares, cash⟩] }
  else some st

/-- One iteration of the loop of `backtest` with checked reads. -/
def backtestStepChecked (dates : List String) (closes shortMA longMA : List ℚ)
    (shortMA_window longMA_window outputStartIdx : Int) (st : SimState) (i : Nat) :
    Option SimState :=
  if skipStep shortMA longMA shortMA_window longMA_window outputStartIdx i then some st
  else
    (stepReadsChecked closes shortMA longMA shortMA_window longMA_window i).bind fun r =>
    tradeStepChecked dates i r st

/-- The loop of `backtest` with checked reads: it stops with `none` at the first
read outside a vector. -/
def loopChecked (step : SimState → Nat → Option SimState) :
    List Nat → SimState → Option SimState
  | [], st => some st
  | i :: rest, st => (step st i).bind fun st1 => loopChecked step rest st1

/-- The final settlement with `closes.back()` and `dates.back()` checked. -/
def settleChecked (dates : List String) (closes : List ℚ) (shortMA_window longMA_window : Int)
    (initialCash : ℚ) (st : SimState) : Option TradeResult :=
  if st.shares > 0 then
    closes.getLast?.bind fun lastClose =>
    dates.getLast?.bind fun lastDate =>
    let finalValue := st.cash + st.shares * lastClose
    some { shortMA := shortMA_window
           longMA := longMA_window
           finalValue := finalValue
           returnRate := ((finalValue - initialCash) / initialCash) * 100
           tradeCount := st.tradeCount + 1
           trades := st.trades ++
             [⟨lastDate, Action.finalLiquidation, lastClose, st.shares, finalValue⟩] }
  else
    some { shortMA := shortMA_window
           longMA := longMA_window
           finalValue := st.cash
           returnRate := ((st.cash - initialCash) / initialCash) * 100
           tradeCount := st.tradeCount
           trades := st.trades }

/-- The function `backtest` with every read of its loop and of its settlement
checked: `none` when some read falls outside its vector. -/
def backtestChecked (dates : List String) (closes : List ℚ)
    (shortMA_window longMA_window : Int) (initialCash : ℚ) (outputStartIdx : Int) :
    Option TradeResult :=
  (loopChecked
    (backtestStepChecked dates closes (computeMA closes shortMA_window)
      (computeMA closes longMA_window) shortMA_window longMA_window outputStartIdx)
    (liveIndices outputStartIdx dates.length) (initialState initialCash)).bind fun st =>
  settleChecked dates closes shortMA_window longMA_window initialCash st

/-! ### Ledger arithmetic -/

/-- The cash flow of one record: a buy takes `shares * price` out of the balance,
a sell or a final liquidation puts it in. -/
def cashFlow (r : TradeRecord) : ℚ :=
  match r.action with
  | Action.buy => -(r.shares * r.price)
  | Action.sell => r.shares * r.price
  | Action.finalLiquidation => r.shares * r.price

/-- The running balance of a ledger: the initial cash plus the cash flows of its
records. -/
def ledgerBalance (initialCash : ℚ) (trades : List TradeRecord) : ℚ :=
  initialCash + (trades.map cashFlow).sum

/-- Every record's `cashAfter` is the running balance of the ledger up to and
including that record. -/
def CashAfterMatches (initialCash : ℚ) (trades : List TradeRecord) : Prop :=
  ∀ (k : Nat) (r : TradeRecord), trades[k]? = some r →
    r.cashAfter = ledgerBalance initialCash (trades.take (k + 1))

/-- Two loaded labels in descending date order, as in a file that lists the
newest row first. -/
def descendingDates : List String := ["12/31/2024", "1/1/2024"]

/-- The closes that go with `descendingDates`. -/
def descendingCloses : List ℚ := [11, 10]

/-! ### Rounded arithmetic

The program computes in `long double`: every sum, difference, product and
quotient is rounded to the format before it is stored. The definitions below are
the same code with that rounding made explicit as a function `rnd` applied to the
exact result of each operation; `rnd = id` gives the exact definitions above.
Conversions from `int` are exact. -/

/-- The power of two `2 ^ e` for an integer exponent. -/
def pow2 (e : Int) : ℚ :=
  if 0 ≤ e then ((2 ^ e.toNat : Nat) : ℚ) else 1 / ((2 ^ (-e).toNat : Nat) : ℚ)

/-- The number of halvings that bring `n` below 2, at most `fuel` of them. -/
def log2Fuel : Nat → Nat → Nat
  | 0, _ => 0
  | fuel + 1, n => if n < 2 then 0 else log2Fuel fuel (n / 2) + 1

/-- The binary logarithm of a natural number, rounded down (`0` at `0`). -/
def log2Nat (n : Nat) : Nat := log2Fuel n n

/-- The binary exponent of a positive rational `a`: the `e` with
`2 ^ e ≤ a < 2 ^ (e + 1)`. -/
def binaryExponent (a : ℚ) : Int :=
  let e0 : Int := (log2Nat a.num.toNat : Int) - (log2Nat a.den : Int)
  if a < pow2 e0 then e0 - 1 else e0

/-- Rounding to the nearest integer, ties to the even one. -/
def roundHalfEven (m : ℚ) : Int :=
  let f := ⌊m⌋
  let frac := m - (f : ℚ)
  if frac < 1 / 2 then f
  else if 1 / 2 < frac then f + 1
  else if f % 2 = 0 then f else f + 1

/-- Rounding to the nearest binary floating-point number with `prec` significant
bits, ties to even, with no bound on the exponent: the default rounding of the
hardware, for values far from overflow and underflow. `prec = 64` is the x87
`long double`, `prec = 53` is `double` (the `long double` of some compilers). -/
def roundToPrec (prec : Nat) (x : ℚ) : ℚ :=
  if x = 0 then 0
  else
    let a := |x|
    let scale := pow2 ((prec : Int) - 1 - binaryExponent a)
    let r := (roundHalfEven (a * scale) : ℚ) / scale
    if x < 0 then -r else r

/-- The function `maStep` with rounded operations. -/
def maStepR (rnd : ℚ → ℚ) (closes : List ℚ) (window : Int) (st : ℚ × List ℚ) (i : Nat) :
    ℚ × List ℚ :=
  let sum1 := rnd (st.1 + closes.getD i 0)
  let sum2 := rnd (sum1 - closes.getD (i - window.toNat) 0)
  (sum2, st.2 ++ [rnd (sum2 / (window : ℚ))])

/-- The function `computeMA` with rounded operations. -/
def computeMAR (rnd : ℚ → ℚ) (closes : List ℚ) (window : Int) : List ℚ :=
  if window < 0 ∨ (closes.length : Int) < window then []
  else
    let sum0 := (List.range window.toNat).foldl (fun s i => rnd (s + closes.getD i 0)) 0
    ((List.range' window.toNat (closes.length - window.toNat)).foldl
      (maStepR rnd closes window) (sum0, [rnd (sum0 / (window : ℚ))])).2

/-- The crossover branch `tradeStep` with rounded operations: the quotient is
rounded before the cast truncates it, and so are the cost, the revenue and the
new cash. -/
def tradeStepR (rnd : ℚ → ℚ) (date : String)
    (currPrice prevShortMA prevLongMA currShortMA currLongMA : ℚ) (st : SimState) : SimState :=
  if prevShortMA ≤ prevLongMA ∧ currShortMA > currLongMA ∧ st.shares = 0 then
    let shares : ℚ := ((castInt (rnd (st.cash / currPrice)) : Int) : ℚ)
    let cost := rnd (shares * currPrice)
    let cash := rnd (st.cash - cost)
    { cash := cash
      shares := shares
      tradeCount := st.tradeCount + 1
      trades := st.trades ++ [⟨date, Action.buy, currPrice, shares, cash⟩] }
  else if prevShortMA ≥ prevLongMA ∧ currShortMA < currLongMA ∧ st.shares > 0 then
    let revenue := rnd (st.shares * currPrice)
    let cash := rnd (st.cash + revenue)
    { cash := cash
      shares := 0
      tradeCount := st.tradeCount + 1
      trades := st.trades ++ [⟨date, Action.sell, currPrice, st.shares, cash⟩] }
  else st

/-- One iteration of the loop of `backtest` with rounded operations. -/
def backtestStepR (rnd : ℚ → ℚ) (dates : List String) (closes shortMA longMA : List ℚ)
    (shortMA_window longMA_window outputStartIdx : Int) (st : SimState) (i : Nat) : SimState :=
  if skipStep shortMA longMA shortMA_window longMA_window outputStartIdx i then st
  else
    let r := stepReads closes shortMA longMA shortMA_window longMA_window i
    tradeStepR rnd (dates.getD i "") r.currPrice r.prevShortMA r.prevLongMA r.currShortMA
      r.currLongMA st

/-- The state of `backtest` when its loop ends, with rounded operations. -/
def backtestLoopR (rnd : ℚ → ℚ) (dates : List String) (closes : List ℚ)
    (shortMA_window longMA_window : Int) (initialCash : ℚ) (outputStartIdx : Int) : SimState :=
  (liveIndices outputStartIdx dates.length).foldl
    (backtestStepR rnd dates closes (computeMAR rnd closes shortMA_window)
      (computeMAR rnd closes longMA_window) shortMA_window longMA_window outputStartIdx)
    (initialState initialCash)

/-- The final settlement with rounded operations. -/
def settleR (rnd : ℚ → ℚ) (dates : List String) (closes : List ℚ)
    (shortMA_window longMA_window : Int) (initialCash : ℚ) (st : SimState) : TradeResult :=
  if st.shares > 0 then
    let finalValue := rnd (st.cash + rnd (st.shares * closes.getLastD 0))
    { shortMA := shortMA_window
      longMA := longMA_window
      finalValue := finalValue
      returnRate := rnd (rnd (rnd (finalValue - initialCash) / initialCash) * 100)
      tradeCount := st.tradeCount + 1
      trades := st.trades ++
        [⟨dates.getLastD "", Action.finalLiquidation, closes.getLastD 0, st.shares, finalValue⟩] }
  else
    { shortMA := shortMA_window
      longMA := longMA_window
      finalValue := st.cash
      returnRate := rnd (rnd (rnd (st.cash - initialCash) / initialCash) * 100)
      tradeCount := st.tradeCount
      trades := st.trades }

/-- The function `backtest` with rounded operations. -/
def backtestR (rnd : ℚ → ℚ) (dates : List String) (closes : List ℚ)
    (shortMA_window longMA_window : Int) (initialCash : ℚ) (dataStartIdx outputStartIdx : Int) :
    TradeResult :=
  settleR rnd dates closes shortMA_window longMA_window initialCash
    (backtestLoopR rnd dates closes shortMA_window longMA_window initialCash outputStartIdx)

/-- The x87 `long double` rounding: 64 significant bits. -/
def longDouble (x : ℚ) : ℚ := roundToPrec 64 x

/-- The running balance of a ledger in the program's arithmetic: starting from
the initial cash, each record in turn changes the balance as the program does, a
buy by subtracting the rounded `shares * price`, a sell or a final liquidation by
adding it, each result rounded. -/
def ledgerBalanceR (rnd : ℚ → ℚ) (initialCash : ℚ) (trades : List TradeRecord) : ℚ :=
  trades.foldl
    (fun b r =>
      match r.action with
      | Action.buy => rnd (b - rnd (r.shares * r.price))
      | Action.sell => rnd (b + rnd (r.shares * r.price))
      | Action.finalLiquidation => rnd (b + rnd (r.shares * r.price)))
    initialCash

/-- The state of the loop of `backtest` after its first `k` iterations. -/
def loopPrefix (dates : List String) (closes : List ℚ) (shortMA_window longMA_window : Int)
    (initialCash : ℚ) (outputStartIdx : Int) (k : Nat) : SimState :=
  ((liveIndices outputStartIdx dates.length).take k).foldl
    (backtestStep dates closes (computeMA closes shortMA_window) (computeMA closes longMA_window)
      shortMA_window longMA_window outputStartIdx)
    (initialState initialCash)

/-- At every evaluated step of the run the quotient `cash / price` truncates to a
value that fits a 32-bit `int`, so the cast `(int)(cash / currPrice)` is defined. -/
def CastsInRange (dates : List String) (closes : List ℚ) (shortMA_window longMA_window : Int)
    (initialCash : ℚ) (outputStartIdx : Int) : Prop :=
  ∀ k, k < (liveIndices outputStartIdx dates.length).length →
    skipStep (computeMA closes shortMA_window) (computeMA closes longMA_window)
        shortMA_window longMA_window outputStartIdx
        ((liveIndices outputStartIdx dates.length).getD k 0) = false →
    INT_MIN ≤ ⌊(loopPrefix dates closes shortMA_window longMA_window initialCash
        outputStartIdx k).cash /
          closes.getD ((liveIndices outputStartIdx dates.length).getD k 0) 0⌋ ∧
    ⌊(loopPrefix dates closes shortMA_window longMA_window initialCash
        outputStartIdx k).cash /
          closes.getD ((liveIndices outputStartIdx dates.length).getD k 0) 0⌋ ≤ INT_MAX

/-- Three closes, the `long double` values nearest 3.3, 3.1 and 3.2: with
windows 1 and 2 the last one is a golden cross at a price just above 3.2. -/
def nearIntegerCloses : List ℚ := [longDouble (33 / 10), longDouble (31 / 10), longDouble (32 / 10)]

/-- Five equal closes, the `long double` value nearest 189.95. -/
def flatCloses : List ℚ := List.replicate 5 (longDouble (18995 / 100))

/-- Four closes, the `long double` values nearest 189.95, 189.95, 192.31 and
185.17: with windows 1 and 2 a buy at the third and a sell at the fourth. -/
def roundTripCloses : List ℚ :=
  [longDouble (18995 / 100), longDouble (18995 / 100), longDouble (19231 / 100),
    longDouble (18517 / 100)]

/-- Every record's `cashAfter` is the running balance, in the program's
arithmetic, of the ledger up to and including that record. -/
def CashAfterMatchesR (rnd : ℚ → ℚ) (initialCash : ℚ) (trades : List TradeRecord) : Prop :=
  ∀ (k : Nat) (r : TradeRecord), trades[k]? = some r →
    r.cashAfter = ledgerBalanceR rnd initialCash (trades.take (k + 1))

/-! ## Moving averages -/

theorem sum_take_succ_getD (t : List ℚ) (k : Nat) :
    (t.take (k + 1)).sum = (t.take k).sum + t.getD k 0 := by
  induction t generalizing k with
  | nil => simp
  | cons a t ih =>
    cases k with
    | zero => simp
    | succ k =>
      have h := ih k
      simp only [List.take_succ_cons, List.sum_cons, List.getD_cons_succ] at h ⊢
      rw [h]; ring

theorem windowSum_succ (closes : List ℚ) (w i : Nat) (hw : 1 ≤ w) (hi : i < closes.length) :
    windowSum closes w (i + 1) = windowSum closes w i + closes.getD (i + w) 0 - closes.getD i 0 := by
  obtain ⟨v, rfl⟩ : ∃ v, w = v + 1 := ⟨w - 1, by omega⟩
  unfold windowSum
  rw [sum_take_succ_getD, List.drop_eq_getElem_cons hi, List.take_succ_cons, List.sum_cons,
    List.getD_eq_getElem _ _ hi]
  have h : (List.drop (i + 1) closes).getD v 0 = closes.getD (i + (v + 1)) 0 := by
    simp only [List.getD_eq_getElem?_getD, List.getElem?_drop]
    congr 2; omega
  rw [h]; ring

theorem firstSum_eq (closes : List ℚ) (w : Nat) :
    (List.range w).foldl (fun s i => s + closes.getD i 0) 0 = windowSum closes w 0 := by
  induction w with
  | zero => simp [windowSum]
  | succ w ih =>
    rw [List.range_succ, List.foldl_append, ih]
    simp only [windowSum, List.drop_zero, List.foldl_cons, List.foldl_nil]
    rw [sum_take_succ_getD]

theorem maLoop_spec (closes : List ℚ) (w : Nat) (hw : 1 ≤ w) (k : Nat)
    (hk : k + w ≤ closes.length) :
    ((List.range' w k).foldl (maStep closes (w : Int))
        (windowSum closes w 0, [windowSum closes w 0 / (w : ℚ)])).1 = windowSum closes w k ∧
    ((List.range' w k).foldl (maStep closes (w : Int))
        (windowSum closes w 0, [windowSum closes w 0 / (w : ℚ)])).2
      = (List.range (k + 1)).map (fun j => windowSum closes w j / (w : ℚ)) := by
  induction k with
  | zero => simp [List.range_succ]
  | succ k ih =>
    obtain ⟨h1, h2⟩ := ih (by omega)
    rw [List.range'_1_concat, List.foldl_append]
    simp only [List.foldl_cons, List.foldl_nil]
    generalize (List.range' w k).foldl (maStep closes (w : Int))
        (windowSum closes w 0, [windowSum closes w 0 / (w : ℚ)]) = r at h1 h2
    have hs : r.1 + closes.getD (w + k) 0 - closes.getD k 0
        = windowSum closes w (k + 1) := by
      rw [h1, windowSum_succ closes w k hw (by omega), Nat.add_comm w k]
    simp only [maStep, Int.toNat_ofNat, Int.cast_natCast, Nat.add_sub_cancel_left, hs, h2]
    refine ⟨trivial, ?_⟩
    rw [List.range_succ (k + 1), List.map_append]
    simp

theorem computeMA_eq (closes : List ℚ) (w : Nat) (hw : 1 ≤ w) (hn : w ≤ closes.length) :
    computeMA closes (w : Int)
      = (List.range (closes.length - w + 1)).map (fun j => windowSum closes w j / (w : ℚ)) := by
  unfold computeMA
  have h1 : ¬ ((w : Int) < 0 ∨ (closes.length : Int) < (w : Int)) := by omega
  rw [if_neg h1]
  simp only [Int.toNat_ofNat, firstSum_eq, Int.cast_natCast]
  exact (maLoop_spec closes w hw (closes.length - w) (by omega)).2

theorem maLoop_length (closes : List ℚ) (window : Int) (l : List Nat) (st : ℚ × List ℚ) :
    (l.foldl (maStep closes window) st).2.length = st.2.length + l.length := by
  induction l generalizing st with
  | nil => simp
  | cons i l ih =>
    rw [List.foldl_cons, ih]
    simp only [maStep, List.length_append, List.length_cons, List.length_nil]
    omega

theorem computeMA_length_general (closes : List ℚ) (window : Int) :
    (computeMA closes window).length
      = if window < 0 ∨ (closes.length : Int) < window then 0
        else closes.length - window.toNat + 1 := by
  unfold computeMA
  split
  · rfl
  · rw [maLoop_length]
    simp only [List.length_cons, List.length_nil, List.length_range']
    omega

/-- C1: for a window `w ≥ 1`, a price sequence `p` of length at least `w` and an
index `i` with `i + w ≤ length p`, entry `i` of `computeMA p w` exists and is the
mean of the slice `p[i], ..., p[i+w-1]` (which has exactly `w` entries) computed
from scratch: the running sum agrees with the direct mean. -/
theorem computeMA_eq_windowMean (p : List ℚ) (w : Nat) (hw : 1 ≤ w) (i : Nat)
    (hi : i + w ≤ p.length) :
    (computeMA p (w : Int))[i]? = some (windowMean p w i) ∧
    ((p.drop i).take w).length = w := by
  constructor
  · rw [computeMA_eq p w hw (by omega)]
    simp only [List.getElem?_map, windowMean, windowSum]
    rw [List.getElem?_range (by omega)]
    rfl
  · simp only [List.length_take, List.length_drop]
    omega

/-- C1 at the example prices, window 3, index 1: the mean of 10, 10, 12. -/
theorem computeMA_eq_windowMean_witness :
    1 ≤ 3 ∧ 1 + 3 ≤ examplePrices.length ∧
    (computeMA examplePrices ((3 : Nat) : Int))[1]? = some (windowMean examplePrices 3 1) ∧
    ((examplePrices.drop 1).take 3).length = 3 :=
  ⟨by decide, by decide, computeMA_eq_windowMean examplePrices 3 (by decide) 1 (by decide)⟩

/-- C2: for a window `w ≥ 1` and a price sequence of any length `n`,
`computeMA` returns a sequence of length `max 0 (n - w + 1)`, and the empty
sequence when `n < w`. -/
theorem computeMA_length (p : List ℚ) (w : Nat) (hw : 1 ≤ w) :
    ((computeMA p (w : Int)).length : Int) = max 0 ((p.length : Int) - (w : Int) + 1) ∧
    (p.length < w → computeMA p (w : Int) = []) := by
  have h := computeMA_length_general p (w : Int)
  by_cases hlt : p.length < w
  · have hc : (w : Int) < 0 ∨ (p.length : Int) < (w : Int) := Or.inr (by omega)
    rw [if_pos hc] at h
    refine ⟨?_, fun _ => List.length_eq_zero.mp h⟩
    rw [h, max_eq_left (by omega)]
    rfl
  · have hc : ¬ ((w : Int) < 0 ∨ (p.length : Int) < (w : Int)) := by omega
    rw [if_neg hc, Int.toNat_ofNat] at h
    refine ⟨?_, fun h' => absurd h' hlt⟩
    rw [h, max_eq_right (by omega)]
    omega

/-- C2 at a series of two prices and window 3: the result is empty. -/
theorem computeMA_length_witness :
    1 ≤ 3 ∧
    ((computeMA [10, 10] ((3 : Nat) : Int)).length : Int)
        = max 0 ((([10, 10] : List ℚ).length : Int) - ((3 : Nat) : Int) + 1) ∧
    (([10, 10] : List ℚ).length < 3 → computeMA [10, 10] ((3 : Nat) : Int) = []) :=
  ⟨by decide, computeMA_length [10, 10] 3 (by decide)⟩

/-! ## One step of the simulation -/

theorem skipStep_eq_false {shortMA longMA : List ℚ} {sw lw start : Int} {i : Nat}
    (h : skipStep shortMA longMA sw lw start i = false) :
    0 < (i : Int) - (sw - 1) ∧ (i : Int) - (sw - 1) < shortMA.length ∧
    0 < (i : Int) - (lw - 1) ∧ (i : Int) - (lw - 1) < longMA.length ∧
    (i : Int) ≠ start := by
  unfold skipStep at h
  simp only at h
  split at h
  · exact absurd h (by decide)
  · split at h
    · exact absurd h (by decide)
    · omega

theorem evaluated_lt_closes {closes : List ℚ} {sw lw start : Int} {i : Nat}
    (h : skipStep (computeMA closes sw) (computeMA closes lw) sw lw start i = false) :
    i < closes.length := by
  obtain ⟨h1, h2, -⟩ := skipStep_eq_false h
  rw [computeMA_length_general] at h2
  split at h2
  · simp only [Nat.cast_zero] at h2; omega
  · omega

theorem mem_liveIndices {start : Int} {n i : Nat} (h : i ∈ liveIndices start n) :
    start ≤ (i : Int) ∧ i < n ∧ 0 ≤ start := by
  unfold liveIndices at h
  split at h
  · simp at h
  · rw [List.mem_range'_1] at h
    omega

theorem castInt_of_nonneg {x : ℚ} (hx : 0 ≤ x) (hr : INT_MIN ≤ ⌊x⌋ ∧ ⌊x⌋ ≤ INT_MAX) :
    castInt x = ⌊x⌋ := by
  unfold castInt truncate
  rw [if_pos hx, if_pos hr]

theorem maLoopR_length (rnd : ℚ → ℚ) (closes : List ℚ) (window : Int) (l : List Nat)
    (st : ℚ × List ℚ) :
    (l.foldl (maStepR rnd closes window) st).2.length = st.2.length + l.length := by
  induction l generalizing st with
  | nil => simp
  | cons i l ih =>
    rw [List.foldl_cons, ih]
    simp only [maStepR, List.length_append, List.length_cons, List.length_nil]
    omega

/-- Rounding does not change the length of the moving-average series. -/
theorem computeMAR_length (rnd : ℚ → ℚ) (closes : List ℚ) (window : Int) :
    (computeMAR rnd closes window).length = (computeMA closes window).length := by
  rw [computeMA_length_general]
  unfold computeMAR
  split
  · rfl
  · rw [maLoopR_length]
    simp only [List.length_cons, List.length_nil, List.length_range']
    omega

/-- The guards of the loop read only the lengths of the two series. -/
theorem skipStep_congr (shortMA longMA shortMA2 longMA2 : List ℚ) (sw lw start : Int) (i : Nat)
    (hs : shortMA2.length = shortMA.length) (hl : longMA2.length = longMA.length) :
    skipStep shortMA2 longMA2 sw lw start i = skipStep shortMA longMA sw lw start i := by
  unfold skipStep
  rw [hs, hl]

theorem skipStep_rounded (rnd : ℚ → ℚ) (closes : List ℚ) (sw lw start : Int) (i : Nat) :
    skipStep (computeMAR rnd closes sw) (computeMAR rnd closes lw) sw lw start i
      = skipStep (computeMA closes sw) (computeMA closes lw) sw lw start i :=
  skipStep_congr _ _ _ _ sw lw start i (computeMAR_length rnd closes sw)
    (computeMAR_length rnd closes lw)

/-- With exact operations the rounded definitions are the exact ones. -/
theorem backtestR_id (dates : List String) (closes : List ℚ) (sw lw : Int)
    (initialCash : ℚ) (dataStartIdx start : Int) :
    backtestR id dates closes sw lw initialCash dataStartIdx start
      = backtest dates closes sw lw initialCash dataStartIdx start ∧
    computeMAR id closes sw = computeMA closes sw :=
  ⟨rfl, rfl⟩

/-- C3 as stated fails on the program's arithmetic: on `nearIntegerCloses`
(values of the format, unchanged by the rounding) with windows 1 and 2 and the
initial cash 10000 of `main`, step 2 is an evaluated live step at a price `p` just
above 3.2, with the position flat,
`prevShort ≤ prevLong`, `currShort > currLong` and `⌊c / p⌋ = 3124` in the range
of an `int`; the rounded quotient `c / p` is 3125, so the step buys 3125 shares,
one more than `⌊c / p⌋`, and `3125 * p` exceeds the cash. -/
theorem rounded_quotient_counterexample :
    nearIntegerCloses.map longDouble = nearIntegerCloses ∧
    2 ∈ liveIndices 0 (exampleDates.take 3).length ∧
    skipStep (computeMAR longDouble nearIntegerCloses 1) (computeMAR longDouble nearIntegerCloses 2)
      1 2 0 2 = false ∧
    0 < nearIntegerCloses.getD 2 0 ∧ 0 ≤ (initialState 10000).cash ∧
    (initialState 10000).shares = 0 ∧
    (stepReads nearIntegerCloses (computeMAR longDouble nearIntegerCloses 1)
        (computeMAR longDouble nearIntegerCloses 2) 1 2 2).prevShortMA
      ≤ (stepReads nearIntegerCloses (computeMAR longDouble nearIntegerCloses 1)
        (computeMAR longDouble nearIntegerCloses 2) 1 2 2).prevLongMA ∧
    (stepReads nearIntegerCloses (computeMAR longDouble nearIntegerCloses 1)
        (computeMAR longDouble nearIntegerCloses 2) 1 2 2).currShortMA
      > (stepReads nearIntegerCloses (computeMAR longDouble nearIntegerCloses 1)
        (computeMAR longDouble nearIntegerCloses 2) 1 2 2).currLongMA ∧
    ⌊(initialState 10000).cash / nearIntegerCloses.getD 2 0⌋ = 3124 ∧
    (backtestStepR longDouble (exampleDates.take 3) nearIntegerCloses
      (computeMAR longDouble nearIntegerCloses 1) (computeMAR longDouble nearIntegerCloses 2)
      1 2 0 (initialState 10000) 2).shares = 3125 ∧
    (3125 : ℚ) * nearIntegerCloses.getD 2 0 > (initialState 10000).cash := by
  decide!

/-- C3, amended: at an evaluated live step `i` with close price `p > 0`, cash
`c ≥ 0` and the truncated rounded quotient in the range of a 32-bit `int`, for
every rounding `rnd` of the arithmetic: the reads of dates and closes are in
bounds; if the position is flat with `prevShort ≤ prevLong` and
`currShort > currLong`, the step sets shares to `k`, the rounded quotient
`rnd (c / p)` truncated toward zero, and cash to `rnd (c - rnd (k * p))`, appends
exactly the buy record `(dates[i], p, k, cash)` and adds one to the trade count;
when the quotient is not changed by the rounding, `k = ⌊c / p⌋` is the greatest
integer with `k * p ≤ c`; otherwise the step appends nothing or one sell record,
so no buy record. -/
theorem golden_cross_step (rnd : ℚ → ℚ) (dates : List String) (closes : List ℚ)
    (sw lw start : Int) (st : SimState) (i : Nat)
    (hi : i ∈ liveIndices start dates.length)
    (hev : skipStep (computeMAR rnd closes sw) (computeMAR rnd closes lw) sw lw start i = false)
    (hp : 0 < closes.getD i 0) (hc : 0 ≤ st.cash)
    (hr : INT_MIN ≤ truncate (rnd (st.cash / closes.getD i 0)) ∧
      truncate (rnd (st.cash / closes.getD i 0)) ≤ INT_MAX) :
    dates[i]? = some (dates.getD i "") ∧ closes[i]? = some (closes.getD i 0) ∧
    ((st.shares = 0 ∧
        (stepReads closes (computeMAR rnd closes sw) (computeMAR rnd closes lw) sw lw
          i).prevShortMA
          ≤ (stepReads closes (computeMAR rnd closes sw) (computeMAR rnd closes lw) sw lw
            i).prevLongMA ∧
        (stepReads closes (computeMAR rnd closes sw) (computeMAR rnd closes lw) sw lw
          i).currShortMA
          > (stepReads closes (computeMAR rnd closes sw) (computeMAR rnd closes lw) sw lw
            i).currLongMA) →
      backtestStepR rnd dates closes (computeMAR rnd closes sw) (computeMAR rnd closes lw)
          sw lw start st i
        = { cash := rnd (st.cash -
              rnd ((truncate (rnd (st.cash / closes.getD i 0)) : ℚ) * closes.getD i 0))
            shares := (truncate (rnd (st.cash / closes.getD i 0)) : ℚ)
            tradeCount := st.tradeCount + 1
            trades := st.trades ++
              [⟨dates.getD i "", Action.buy, closes.getD i 0,
                (truncate (rnd (st.cash / closes.getD i 0)) : ℚ),
                rnd (st.cash -
                  rnd ((truncate (rnd (st.cash / closes.getD i 0)) : ℚ) *
                    closes.getD i 0))⟩] }) ∧
    (rnd (st.cash / closes.getD i 0) = st.cash / closes.getD i 0 →
      truncate (rnd (st.cash / closes.getD i 0)) = ⌊st.cash / closes.getD i 0⌋ ∧
      (⌊st.cash / closes.getD i 0⌋ : ℚ) * closes.getD i 0 ≤ st.cash ∧
      ∀ m : Int, (m : ℚ) * closes.getD i 0 ≤ st.cash → m ≤ ⌊st.cash / closes.getD i 0⌋) ∧
    (¬ (st.shares = 0 ∧
        (stepReads closes (computeMAR rnd closes sw) (computeMAR rnd closes lw) sw lw
          i).prevShortMA
          ≤ (stepReads closes (computeMAR rnd closes sw) (computeMAR rnd closes lw) sw lw
            i).prevLongMA ∧
        (stepReads closes (computeMAR rnd closes sw) (computeMAR rnd closes lw) sw lw
          i).currShortMA
          > (stepReads closes (computeMAR rnd closes sw) (computeMAR rnd closes lw) sw lw
            i).currLongMA) →
      (backtestStepR rnd dates closes (computeMAR rnd closes sw) (computeMAR rnd closes lw)
          sw lw start st i).trades = st.trades ∨
      ∃ r : TradeRecord, r.action = Action.sell ∧
        (backtestStepR rnd dates closes (computeMAR rnd closes sw) (computeMAR rnd closes lw)
          sw lw start st i).trades = st.trades ++ [r]) := by
  have hid : i < dates.length := (mem_liveIndices hi).2.1
  have hic : i < closes.length :=
    evaluated_lt_closes (by rw [← skipStep_rounded rnd]; exact hev)
  have hq : 0 ≤ st.cash / closes.getD i 0 := div_nonneg hc hp.le
  have hcast : castInt (rnd (st.cash / closes.getD i 0))
      = truncate (rnd (st.cash / closes.getD i 0)) := by
    unfold castInt
    rw [if_pos hr]
  refine ⟨?_, ?_, ?_, ?_, ?_⟩
  · simp [List.getD_eq_getElem?_getD, List.getElem?_eq_getElem hid]
  · simp [List.getD_eq_getElem?_getD, List.getElem?_eq_getElem hic]
  · rintro ⟨h0, h1, h2⟩
    unfold backtestStepR
    rw [hev]
    simp only [Bool.false_eq_true, if_false]
    unfold tradeStepR
    rw [if_pos ⟨h1, h2, h0⟩]
    have hcur : (stepReads closes (computeMAR rnd closes sw) (computeMAR rnd closes lw) sw lw
        i).currPrice = closes.getD i 0 := rfl
    simp only [hcur, hcast]
  · intro hexact
    refine ⟨?_, ?_, ?_⟩
    · rw [hexact]
      unfold truncate
      rw [if_pos hq]
    · have := Int.floor_le (st.cash / closes.getD i 0)
      rwa [le_div_iff₀ hp] at this
    · intro m hm
      rw [Int.le_floor, le_div_iff₀ hp]
      exact hm
  · intro hn
    unfold backtestStepR
    rw [hev]
    simp only [Bool.false_eq_true, if_false]
    unfold tradeStepR
    rw [if_neg (fun h => hn ⟨h.2.2, h.1, h.2.1⟩)]
    split
    · exact Or.inr ⟨_, rfl, rfl⟩
    · exact Or.inl rfl

/-- C3, amended, at step 2 of `nearIntegerCloses` in `long double` arithmetic:
the step buys 3125 shares, the rounded cost is 10000 and the cash after is 0. -/
theorem golden_cross_step_witness :
    2 ∈ liveIndices 0 (exampleDates.take 3).length ∧
    skipStep (computeMAR longDouble nearIntegerCloses 1) (computeMAR longDouble nearIntegerCloses 2)
      1 2 0 2 = false ∧
    0 < nearIntegerCloses.getD 2 0 ∧ 0 ≤ (initialState 10000).cash ∧
    (INT_MIN ≤ truncate (longDouble ((initialState 10000).cash / nearIntegerCloses.getD 2 0)) ∧
      truncate (longDouble ((initialState 10000).cash / nearIntegerCloses.getD 2 0))
        ≤ INT_MAX) ∧
    backtestStepR longDouble (exampleDates.take 3) nearIntegerCloses
        (computeMAR longDouble nearIntegerCloses 1) (computeMAR longDouble nearIntegerCloses 2)
        1 2 0 (initialState 10000) 2
      = { cash := 0, shares := 3125, tradeCount := 1
          trades := [⟨"1/3/2024", Action.buy, nearIntegerCloses.getD 2 0, 3125, 0⟩] } := by
  have h := golden_cross_step longDouble (exampleDates.take 3) nearIntegerCloses 1 2 0
    (initialState 10000) 2 (by decide) (by decide!) (by decide!) (by decide!) (by decide!)
  refine ⟨by decide, by decide!, by decide!, by decide!, by decide!, ?_⟩
  rw [h.2.2.1 (by decide!)]
  decide!

theorem foldl_invariant {α β : Type} (f : β → α → β) (P : β → Prop) (l : List α) (b : β)
    (h0 : P b) (hs : ∀ b a, a ∈ l → P b → P (f b a)) : P (l.foldl f b) := by
  induction l generalizing b with
  | nil => exact h0
  | cons a l ih =>
    rw [List.foldl_cons]
    exact ih (f b a) (hs b a (List.mem_cons_self a l) h0)
      (fun b' a' ha' hb' => hs b' a' (List.mem_cons_of_mem a ha') hb')

/-- An invariant of the loop of `backtest`: it holds in the initial state and
every iteration at a loop index keeps it. -/
theorem backtestLoop_invariant (dates : List String) (closes : List ℚ) (sw lw : Int)
    (initialCash : ℚ) (start : Int) (P : SimState → Prop)
    (h0 : P (initialState initialCash))
    (hs : ∀ st i, i ∈ liveIndices start dates.length → P st →
      P (backtestStep dates closes (computeMA closes sw) (computeMA closes lw) sw lw start st i)) :
    P (backtestLoop dates closes sw lw initialCash start) :=
  foldl_invariant _ P _ _ h0 hs

/-- The three outcomes of one iteration: the state is unchanged, or the step is
evaluated and buys from a flat position, or it is evaluated and sells a long one. -/
theorem backtestStep_cases (dates : List String) (closes shortMA longMA : List ℚ)
    (sw lw start : Int) (st : SimState) (i : Nat) :
    backtestStep dates closes shortMA longMA sw lw start st i = st ∨
    (skipStep shortMA longMA sw lw start i = false ∧ st.shares = 0 ∧
      ∃ k : Int, backtestStep dates closes shortMA longMA sw lw start st i
        = { cash := st.cash - (k : ℚ) * closes.getD i 0
            shares := (k : ℚ)
            tradeCount := st.tradeCount + 1
            trades := st.trades ++ [⟨dates.getD i "", Action.buy, closes.getD i 0, (k : ℚ),
              st.cash - (k : ℚ) * closes.getD i 0⟩] }) ∨
    (skipStep shortMA longMA sw lw start i = false ∧ 0 < st.shares ∧
      backtestStep dates closes shortMA longMA sw lw start st i
        = { cash := st.cash + st.shares * closes.getD i 0
            shares := 0
            tradeCount := st.tradeCount + 1
            trades := st.trades ++ [⟨dates.getD i "", Action.sell, closes.getD i 0, st.shares,
              st.cash + st.shares * closes.getD i 0⟩] }) := by
  unfold backtestStep
  cases hsk : skipStep shortMA longMA sw lw start i with
  | true => exact Or.inl (by simp)
  | false =>
    simp only [Bool.false_eq_true, if_false]
    unfold tradeStep
    split
    · next h => exact Or.inr (Or.inl ⟨trivial, h.2.2, _, rfl⟩)
    · split
      · next h => exact Or.inr (Or.inr ⟨trivial, h.2.2, rfl⟩)
      · exact Or.inl rfl

theorem loopRecord_of_evaluated {dates : List String} {closes : List ℚ} {sw lw start : Int}
    {i : Nat} (hi : i ∈ liveIndices start dates.length)
    (hev : skipStep (computeMA closes sw) (computeMA closes lw) sw lw start i = false)
    (a : Action) (ha : a = Action.buy ∨ a = Action.sell) (k c : ℚ) :
    LoopRecord dates closes start ⟨dates.getD i "", a, closes.getD i 0, k, c⟩ := by
  have hid : i < dates.length := (mem_liveIndices hi).2.1
  have hic : i < closes.length := evaluated_lt_closes hev
  have hne := (skipStep_eq_false hev).2.2.2.2
  have hle := (mem_liveIndices hi).1
  refine ⟨ha, i, lt_of_le_of_ne hle (Ne.symm hne), hid, ?_, ?_⟩
  · simp [List.getD_eq_getElem?_getD, List.getElem?_eq_getElem hid]
  · simp [List.getD_eq_getElem?_getD, List.getElem?_eq_getElem hic]

theorem backtestLoop_records (dates : List String) (closes : List ℚ) (sw lw : Int)
    (initialCash : ℚ) (start : Int) :
    (∀ r ∈ (backtestLoop dates closes sw lw initialCash start).trades,
      LoopRecord dates closes start r) ∧
    ((backtestLoop dates closes sw lw initialCash start).shares ≠ 0 →
      (backtestLoop dates closes sw lw initialCash start).trades ≠ []) := by
  refine backtestLoop_invariant dates closes sw lw initialCash start
    (fun st => (∀ r ∈ st.trades, LoopRecord dates closes start r) ∧
      (st.shares ≠ 0 → st.trades ≠ [])) ?_ ?_
  · exact ⟨fun r hr => by simp [initialState] at hr, fun h => absurd rfl h⟩
  · intro st i hi ⟨h1, h2⟩
    rcases backtestStep_cases dates closes (computeMA closes sw) (computeMA closes lw)
      sw lw start st i with h | ⟨hev, -, k, h⟩ | ⟨hev, -, h⟩
    · rw [h]; exact ⟨h1, h2⟩
    · rw [h]
      refine ⟨fun r hr => ?_, fun _ => by simp⟩
      rcases List.mem_append.mp hr with hr | hr
      · exact h1 r hr
      · rw [List.mem_singleton.mp hr]
        exact loopRecord_of_evaluated hi hev _ (Or.inl rfl) _ _
    · rw [h]
      refine ⟨fun r hr => ?_, fun _ => by simp⟩
      rcases List.mem_append.mp hr with hr | hr
      · exact h1 r hr
      · rw [List.mem_singleton.mp hr]
        exact loopRecord_of_evaluated hi hev _ (Or.inr rfl) _ _

theorem getLastD_is_last {α : Type} (l : List α) (d : α) (h : l ≠ []) :
    l.getLast? = some (l.getLastD d) := by
  cases l with
  | nil => exact absurd rfl h
  | cons a t => simp [List.getLast?_cons]

/-- The outcomes of one iteration with the share count of a buy made explicit:
the state is unchanged, or the step is evaluated and buys
`(int)(cash / currPrice)` shares from a flat position, or it is evaluated and
sells a long one. -/
theorem backtestStep_outcomes (dates : List String) (closes shortMA longMA : List ℚ)
    (sw lw start : Int) (st : SimState) (i : Nat) :
    backtestStep dates closes shortMA longMA sw lw start st i = st ∨
    (skipStep shortMA longMA sw lw start i = false ∧ st.shares = 0 ∧
      (backtestStep dates closes shortMA longMA sw lw start st i).shares
        = ((castInt (st.cash / closes.getD i 0) : Int) : ℚ) ∧
      (backtestStep dates closes shortMA longMA sw lw start st i).cash
        = st.cash - ((castInt (st.cash / closes.getD i 0) : Int) : ℚ) * closes.getD i 0) ∨
    (skipStep shortMA longMA sw lw start i = false ∧ 0 < st.shares ∧
      (backtestStep dates closes shortMA longMA sw lw start st i).shares = 0 ∧
      (backtestStep dates closes shortMA longMA sw lw start st i).cash
        = st.cash + st.shares * closes.getD i 0) := by
  unfold backtestStep
  cases hsk : skipStep shortMA longMA sw lw start i with
  | true => exact Or.inl (by simp)
  | false =>
    simp only [Bool.false_eq_true, if_false]
    unfold tradeStep
    split
    · next h => exact Or.inr (Or.inl ⟨trivial, h.2.2, rfl, rfl⟩)
    · split
      · next h => exact Or.inr (Or.inr ⟨trivial, h.2.2, rfl, rfl⟩)
      · exact Or.inl rfl

theorem loopPrefix_succ (dates : List String) (closes : List ℚ) (sw lw : Int)
    (initialCash : ℚ) (start : Int) (k : Nat)
    (hk : k < (liveIndices start dates.length).length) :
    loopPrefix dates closes sw lw initialCash start (k + 1)
      = backtestStep dates closes (computeMA closes sw) (computeMA closes lw) sw lw start
          (loopPrefix dates closes sw lw initialCash start k)
          ((liveIndices start dates.length).getD k 0) := by
  unfold loopPrefix
  rw [List.take_succ, List.foldl_append, List.getElem?_eq_getElem hk,
    List.getD_eq_getElem _ _ hk]
  rfl

theorem loopPrefix_all (dates : List String) (closes : List ℚ) (sw lw : Int)
    (initialCash : ℚ) (start : Int) :
    loopPrefix dates closes sw lw initialCash start (liveIndices start dates.length).length
      = backtestLoop dates closes sw lw initialCash start := by
  unfold loopPrefix backtestLoop
  rw [List.take_of_length_le (le_refl _)]

/-- With non-negative initial cash, positive closes and every cast in range, cash
and shares are non-negative after every number of iterations. -/
theorem loopPrefix_nonneg (dates : List String) (closes : List ℚ) (sw lw : Int)
    (initialCash : ℚ) (start : Int) (hcash : 0 ≤ initialCash)
    (hpos : ∀ p ∈ closes, (0 : ℚ) < p)
    (hrange : CastsInRange dates closes sw lw initialCash start) (k : Nat)
    (hk : k ≤ (liveIndices start dates.length).length) :
    0 ≤ (loopPrefix dates closes sw lw initialCash start k).cash ∧
    0 ≤ (loopPrefix dates closes sw lw initialCash start k).shares := by
  induction k with
  | zero => exact ⟨hcash, le_refl 0⟩
  | succ k ih =>
    have hklt : k < (liveIndices start dates.length).length := hk
    obtain ⟨hc, hs⟩ := ih (Nat.le_of_lt hklt)
    rw [loopPrefix_succ dates closes sw lw initialCash start k hklt]
    rcases backtestStep_outcomes dates closes (computeMA closes sw) (computeMA closes lw)
      sw lw start (loopPrefix dates closes sw lw initialCash start k)
      ((liveIndices start dates.length).getD k 0) with h | ⟨hev, -, h1, h2⟩ | ⟨hev, hlong, h1, h2⟩
    · rw [h]; exact ⟨hc, hs⟩
    · have hic := evaluated_lt_closes hev
      have hp : 0 < closes.getD ((liveIndices start dates.length).getD k 0) 0 := by
        rw [List.getD_eq_getElem _ _ hic]
        exact hpos _ (List.getElem_mem _)
      have hq : 0 ≤ (loopPrefix dates closes sw lw initialCash start k).cash /
          closes.getD ((liveIndices start dates.length).getD k 0) 0 := div_nonneg hc hp.le
      have hcast := castInt_of_nonneg hq (hrange k hklt hev)
      rw [h1, h2, hcast]
      have hfl := Int.floor_le ((loopPrefix dates closes sw lw initialCash start k).cash /
          closes.getD ((liveIndices start dates.length).getD k 0) 0)
      rw [le_div_iff₀ hp] at hfl
      refine ⟨sub_nonneg.mpr hfl, ?_⟩
      exact_mod_cast Int.floor_nonneg.mpr hq
    · have hic := evaluated_lt_closes hev
      have hp : 0 < closes.getD ((liveIndices start dates.length).getD k 0) 0 := by
        rw [List.getD_eq_getElem _ _ hic]
        exact hpos _ (List.getElem_mem _)
      rw [h1, h2]
      exact ⟨add_nonneg hc (mul_nonneg hlong.le hp.le), le_refl 0⟩

/-- C7: conservation, in exact arithmetic. For a call of `backtest` with
non-negative initial cash, positive closes and every cast `(int)(cash / price)`
in range: every iteration of the loop, from any state, keeps `cash + shares * p`
at the step's close price `p` (a buy, a sell or no action), and the settlement
returns `cash + shares * lastClose` of the state the loop ends in. -/
theorem conservation (dates : List String) (closes : List ℚ) (sw lw : Int)
    (initialCash : ℚ) (dataStartIdx start : Int) (hcash : 0 ≤ initialCash)
    (hpos : ∀ p ∈ closes, (0 : ℚ) < p)
    (hrange : CastsInRange dates closes sw lw initialCash start) :
    (∀ (st : SimState) (i : Nat),
      (backtestStep dates closes (computeMA closes sw) (computeMA closes lw) sw lw start
          st i).cash +
        (backtestStep dates closes (computeMA closes sw) (computeMA closes lw) sw lw start
          st i).shares * closes.getD i 0
        = st.cash + st.shares * closes.getD i 0) ∧
    (backtest dates closes sw lw initialCash dataStartIdx start).finalValue
      = (backtestLoop dates closes sw lw initialCash start).cash +
        (backtestLoop dates closes sw lw initialCash start).shares * closes.getLastD 0 := by
  constructor
  · intro st i
    rcases backtestStep_cases dates closes (computeMA closes sw) (computeMA closes lw)
      sw lw start st i with h | ⟨-, h0, k, h⟩ | ⟨-, -, h⟩
    · rw [h]
    · rw [h, h0]; ring
    · rw [h]; ring
  · have hsh : 0 ≤ (backtestLoop dates closes sw lw initialCash start).shares := by
      rw [← loopPrefix_all]
      exact (loopPrefix_nonneg dates closes sw lw initialCash start hcash hpos hrange _
        (le_refl _)).2
    unfold backtest settle
    split
    · rfl
    · next hn =>
      have h0 : (backtestLoop dates closes sw lw initialCash start).shares = 0 :=
        le_antisymm (not_lt.mp hn) hsh
      simp only [h0, zero_mul, add_zero]

/-- C7 on the first six example prices with initial cash 100: the casts are in
range, the loop ends with cash 4 and 8 shares, and the final value is
`4 + 8 * 12 = 100`. -/
theorem conservation_witness :
    (0 : ℚ) ≤ 100 ∧ (∀ p ∈ examplePrices.take 6, (0 : ℚ) < p) ∧
    CastsInRange (exampleDates.take 6) (examplePrices.take 6) 2 3 100 0 ∧
    (backtestLoop (exampleDates.take 6) (examplePrices.take 6) 2 3 100 0).cash = 4 ∧
    (backtestLoop (exampleDates.take 6) (examplePrices.take 6) 2 3 100 0).shares = 8 ∧
    (examplePrices.take 6).getLastD 0 = 12 ∧
    (backtest (exampleDates.take 6) (examplePrices.take 6) 2 3 100 0 0).finalValue
      = (backtestLoop (exampleDates.take 6) (examplePrices.take 6) 2 3 100 0).cash +
        (backtestLoop (exampleDates.take 6) (examplePrices.take 6) 2 3 100 0).shares *
          (examplePrices.take 6).getLastD 0 := by
  have hpos : ∀ p ∈ examplePrices.take 6, (0 : ℚ) < p := by decide!
  have hrange : CastsInRange (exampleDates.take 6) (examplePrices.take 6) 2 3 100 0 := by
    unfold CastsInRange
    decide!
  exact ⟨by decide!, hpos, hrange, by decide!, by decide!, by decide!,
    (conservation (exampleDates.take 6) (examplePrices.take 6) 2 3 100 0 0 (by decide!) hpos
      hrange).2⟩

/-- C8: with equal windows `w ≥ 1` the two averages coincide, so for every price
series, live start and initial cash `backtest` returns trade count 0, an empty
ledger and a final value equal to the initial cash. -/
theorem equal_windows_no_trade (dates : List String) (closes : List ℚ) (w : Int)
    (hw : 1 ≤ w) (initialCash : ℚ) (dataStartIdx start : Int) :
    (backtest dates closes w w initialCash dataStartIdx start).tradeCount = 0 ∧
    (backtest dates closes w w initialCash dataStartIdx start).trades = [] ∧
    (backtest dates closes w w initialCash dataStartIdx start).finalValue = initialCash := by
  have hloop : backtestLoop dates closes w w initialCash start = initialState initialCash := by
    refine backtestLoop_invariant dates closes w w initialCash start
      (fun st => st = initialState initialCash) rfl ?_
    intro st i _ hst
    unfold backtestStep
    split
    · exact hst
    · simp only [tradeStep, stepReads, gt_iff_lt, lt_self_iff_false, false_and, and_false,
        if_false]
      exact hst
  unfold backtest settle
  rw [hloop]
  simp [initialState]

/-- C8 on the example prices with both windows 2. -/
theorem equal_windows_no_trade_witness :
    (1 : Int) ≤ 2 ∧
    (backtest exampleDates examplePrices 2 2 100 0 0).tradeCount = 0 ∧
    (backtest exampleDates examplePrices 2 2 100 0 0).trades = [] ∧
    (backtest exampleDates examplePrices 2 2 100 0 0).finalValue = 100 :=
  ⟨by decide, equal_windows_no_trade exampleDates examplePrices 2 (by decide) 100 0 0⟩

/-- C9: the example scenario. On prices 10, 10, 10, 12, 12, 12, 9, 9, 9 with
windows 2 and 3, initial cash 100 and live start 0, `backtest` returns exactly two
records, a buy of 8 shares at 12 on the date of index 3 (cash after 4) and a sell
of 8 shares at 9 on the date of index 6 (cash after 76), no final liquidation,
trade count 2, final value 76 and return rate -24. -/
theorem example_scenario :
    backtest exampleDates examplePrices 2 3 100 0 0
      = { shortMA := 2
          longMA := 3
          finalValue := 76
          returnRate := -24
          tradeCount := 2
          trades := [⟨exampleDates.getD 3 "", Action.buy, 12, 8, 4⟩,
                     ⟨exampleDates.getD 6 "", Action.sell, 9, 8, 76⟩] } ∧
    examplePrices = [10, 10, 10, 12, 12, 12, 9, 9, 9] ∧
    exampleDates.length = 9 ∧ exampleDates.Nodup := by
  decide!

/-- C10: with a live start `s ≥ 0`, every buy and every sell record of the
ledger `backtest` returns carries the date `dates[i]` and the price `closes[i]` of
an index `i` with `s < i < length dates`: neither the seed history before `s` nor
the first live step `s` produces a trade. -/
theorem trades_inside_live_region (dates : List String) (closes : List ℚ) (sw lw : Int)
    (initialCash : ℚ) (dataStartIdx s : Int) (hs : 0 ≤ s) (r : TradeRecord)
    (hr : r ∈ (backtest dates closes sw lw initialCash dataStartIdx s).trades)
    (ha : r.action = Action.buy ∨ r.action = Action.sell) :
    ∃ i : Nat, s < (i : Int) ∧ i < dates.length ∧
      dates[i]? = some r.date ∧ closes[i]? = some r.price := by
  obtain ⟨hrec, -⟩ := backtestLoop_records dates closes sw lw initialCash s
  unfold backtest settle at hr
  split at hr
  · rcases List.mem_append.mp hr with h | h
    · exact (hrec r h).2
    · rw [List.mem_singleton.mp h] at ha
      rcases ha with ha | ha <;> simp at ha
  · exact (hrec r hr).2

/-- C10 on the example scenario with live start 2: the buy record belongs to an
index after 2. -/
theorem trades_inside_live_region_witness :
    (0 : Int) ≤ 2 ∧
    (⟨"1/4/2024", Action.buy, 12, 8, 4⟩ : TradeRecord)
      ∈ (backtest exampleDates examplePrices 2 3 100 0 2).trades ∧
    ∃ i : Nat, (2 : Int) < (i : Int) ∧ i < exampleDates.length ∧
      exampleDates[i]? = some "1/4/2024" ∧ examplePrices[i]? = some 12 :=
  ⟨by decide, by decide!,
    trades_inside_live_region exampleDates examplePrices 2 3 100 0 2 (by decide)
      ⟨"1/4/2024", Action.buy, 12, 8, 4⟩ (by decide!) (Or.inl rfl)⟩

/-- C6 fails on the code: on `stalledPrices` with windows 2 and 3 and initial
cash 100, the golden cross at index 3 finds a price of 120, so it buys
`(int)(100 / 120) = 0` shares and still records a buy; the position stays flat,
the death cross at index 6 is ignored, and the golden cross at index 9 records a
second buy. The ledger is buy, buy, with no sell between them and no final
liquidation after the last buy. -/
theorem zero_share_buy_breaks_alternation :
    backtest stalledDates stalledPrices 2 3 100 0 0
      = { shortMA := 2
          longMA := 3
          finalValue := 100
          returnRate := 0
          tradeCount := 2
          trades := [⟨"1/4/2024", Action.buy, 120, 0, 100⟩,
                     ⟨"1/10/2024", Action.buy, 120, 0, 100⟩] } ∧
    (backtest stalledDates stalledPrices 2 3 100 0 0).trades.map (fun r => r.action)
      = [Action.buy, Action.buy] := by
  decide!

/-! ## Ledger accounting and trade count -/

theorem ledgerBalance_append (c : ℚ) (l : List TradeRecord) (r : TradeRecord) :
    ledgerBalance c (l ++ [r]) = ledgerBalance c l + cashFlow r := by
  simp only [ledgerBalance, List.map_append, List.sum_append, List.map_cons, List.map_nil,
    List.sum_cons, List.sum_nil]
  ring

theorem cashAfterMatches_append {c : ℚ} {l : List TradeRecord} {r : TradeRecord}
    (hl : CashAfterMatches c l) (hr : r.cashAfter = ledgerBalance c (l ++ [r])) :
    CashAfterMatches c (l ++ [r]) := by
  intro k x hx
  rcases Nat.lt_or_ge k l.length with hk | hk
  · rw [List.getElem?_append_left hk] at hx
    rw [List.take_append_of_le_length (by omega)]
    exact hl k x hx
  · rw [List.getElem?_append_right hk] at hx
    have hk0 : k - l.length = 0 := by
      by_contra hne
      rw [List.getElem?_eq_none (by simp; omega)] at hx
      exact absurd hx (by simp)
    rw [hk0] at hx
    simp only [List.getElem?_cons_zero, Option.some.injEq] at hx
    rw [← hx, List.take_of_length_le (by simp; omega)]
    exact hr

theorem backtestLoop_ledger (dates : List String) (closes : List ℚ) (sw lw : Int)
    (initialCash : ℚ) (start : Int) :
    (backtestLoop dates closes sw lw initialCash start).cash
      = ledgerBalance initialCash (backtestLoop dates closes sw lw initialCash start).trades ∧
    CashAfterMatches initialCash (backtestLoop dates closes sw lw initialCash start).trades ∧
    (backtestLoop dates closes sw lw initialCash start).tradeCount
      = (backtestLoop dates closes sw lw initialCash start).trades.length := by
  refine backtestLoop_invariant dates closes sw lw initialCash start
    (fun st => st.cash = ledgerBalance initialCash st.trades ∧
      CashAfterMatches initialCash st.trades ∧ st.tradeCount = st.trades.length) ?_ ?_
  · refine ⟨by simp [initialState, ledgerBalance], ?_, rfl⟩
    intro k r hr
    simp [initialState] at hr
  · intro st i _ ⟨h1, h2, h3⟩
    rcases backtestStep_cases dates closes (computeMA closes sw) (computeMA closes lw)
      sw lw start st i with h | ⟨-, -, k, h⟩ | ⟨-, -, h⟩
    · rw [h]; exact ⟨h1, h2, h3⟩
    · rw [h]
      have hb : st.cash - (k : ℚ) * closes.getD i 0
          = ledgerBalance initialCash (st.trades ++
            [⟨dates.getD i "", Action.buy, closes.getD i 0, (k : ℚ),
              st.cash - (k : ℚ) * closes.getD i 0⟩]) := by
        rw [ledgerBalance_append, ← h1]
        simp only [cashFlow]
        ring
      exact ⟨hb, cashAfterMatches_append h2 hb, by simp [h3]⟩
    · rw [h]
      have hb : st.cash + st.shares * closes.getD i 0
          = ledgerBalance initialCash (st.trades ++
            [⟨dates.getD i "", Action.sell, closes.getD i 0, st.shares,
              st.cash + st.shares * closes.getD i 0⟩]) := by
        rw [ledgerBalance_append, ← h1]
        simp only [cashFlow]
      exact ⟨hb, cashAfterMatches_append h2 hb, by simp [h3]⟩

theorem ledgerBalance_split (c : ℚ) (l : List TradeRecord) :
    ledgerBalance c l
      = c - ((l.filter (fun r => decide (r.action = Action.buy))).map
              (fun r => r.shares * r.price)).sum
          + ((l.filter (fun r => decide (r.action = Action.sell ∨
                r.action = Action.finalLiquidation))).map (fun r => r.shares * r.price)).sum := by
  unfold ledgerBalance
  induction l with
  | nil => simp
  | cons r l ih =>
    have hr : r.action = Action.buy ∨ r.action = Action.sell ∨
        r.action = Action.finalLiquidation := by
      cases r.action <;> simp
    rw [List.map_cons, List.sum_cons, ← add_assoc, add_right_comm, ih]
    rcases hr with h | h | h <;> simp [List.filter_cons, cashFlow, h] <;> ring

theorem ledgerBalanceR_append (rnd : ℚ → ℚ) (c : ℚ) (l : List TradeRecord) (r : TradeRecord) :
    ledgerBalanceR rnd c (l ++ [r])
      = match r.action with
        | Action.buy => rnd (ledgerBalanceR rnd c l - rnd (r.shares * r.price))
        | Action.sell => rnd (ledgerBalanceR rnd c l + rnd (r.shares * r.price))
        | Action.finalLiquidation =>
            rnd (ledgerBalanceR rnd c l + rnd (r.shares * r.price)) := by
  unfold ledgerBalanceR
  rw [List.foldl_append]
  rfl

theorem ledgerBalanceR_id (c : ℚ) (l : List TradeRecord) :
    ledgerBalanceR id c l = ledgerBalance c l := by
  induction l using List.reverseRecOn with
  | nil => simp [ledgerBalanceR, ledgerBalance]
  | append_singleton l r ih =>
    rw [ledgerBalanceR_append, ledgerBalance_append, ih]
    cases hr : r.action <;> simp [cashFlow, hr]
    ring

theorem cashAfterMatchesR_append {rnd : ℚ → ℚ} {c : ℚ} {l : List TradeRecord}
    {r : TradeRecord} (hl : CashAfterMatchesR rnd c l)
    (hr : r.cashAfter = ledgerBalanceR rnd c (l ++ [r])) :
    CashAfterMatchesR rnd c (l ++ [r]) := by
  intro k x hx
  rcases Nat.lt_or_ge k l.length with hk | hk
  · rw [List.getElem?_append_left hk] at hx
    rw [List.take_append_of_le_length (by omega)]
    exact hl k x hx
  · rw [List.getElem?_append_right hk] at hx
    have hk0 : k - l.length = 0 := by
      by_contra hne
      rw [List.getElem?_eq_none (by simp; omega)] at hx
      exact absurd hx (by simp)
    rw [hk0] at hx
    simp only [List.getElem?_cons_zero, Option.some.injEq] at hx
    rw [← hx, List.take_of_length_le (by simp; omega)]
    exact hr

/-- The three outcomes of one iteration in rounded arithmetic. -/
theorem backtestStepR_cases (rnd : ℚ → ℚ) (dates : List String)
    (closes shortMA longMA : List ℚ) (sw lw start : Int) (st : SimState) (i : Nat) :
    backtestStepR rnd dates closes shortMA longMA sw lw start st i = st ∨
    (∃ k : Int, backtestStepR rnd dates closes shortMA longMA sw lw start st i
        = { cash := rnd (st.cash - rnd ((k : ℚ) * closes.getD i 0))
            shares := (k : ℚ)
            tradeCount := st.tradeCount + 1
            trades := st.trades ++ [⟨dates.getD i "", Action.buy, closes.getD i 0, (k : ℚ),
              rnd (st.cash - rnd ((k : ℚ) * closes.getD i 0))⟩] }) ∨
    backtestStepR rnd dates closes shortMA longMA sw lw start st i
        = { cash := rnd (st.cash + rnd (st.shares * closes.getD i 0))
            shares := 0
            tradeCount := st.tradeCount + 1
            trades := st.trades ++ [⟨dates.getD i "", Action.sell, closes.getD i 0, st.shares,
              rnd (st.cash + rnd (st.shares * closes.getD i 0))⟩] } := by
  unfold backtestStepR
  cases hsk : skipStep shortMA longMA sw lw start i with
  | true => exact Or.inl (by simp)
  | false =>
    simp only [Bool.false_eq_true, if_false]
    unfold tradeStepR
    split
    · exact Or.inr (Or.inl ⟨_, rfl⟩)
    · split
      · exact Or.inr (Or.inr rfl)
      · exact Or.inl rfl

theorem backtestLoopR_ledger (rnd : ℚ → ℚ) (dates : List String) (closes : List ℚ)
    (sw lw : Int) (initialCash : ℚ) (start : Int) :
    (backtestLoopR rnd dates closes sw lw initialCash start).cash
      = ledgerBalanceR rnd initialCash
          (backtestLoopR rnd dates closes sw lw initialCash start).trades ∧
    CashAfterMatchesR rnd initialCash
      (backtestLoopR rnd dates closes sw lw initialCash start).trades := by
  unfold backtestLoopR
  refine foldl_invariant _
    (fun st : SimState => st.cash = ledgerBalanceR rnd initialCash st.trades ∧
      CashAfterMatchesR rnd initialCash st.trades) _ _ ?_ ?_
  · refine ⟨rfl, ?_⟩
    intro k r hr
    simp [initialState] at hr
  · intro st i _ ⟨h1, h2⟩
    rcases backtestStepR_cases rnd dates closes (computeMAR rnd closes sw)
      (computeMAR rnd closes lw) sw lw start st i with h | ⟨k, h⟩ | h
    · rw [h]; exact ⟨h1, h2⟩
    · rw [h]
      have hb : rnd (st.cash - rnd ((k : ℚ) * closes.getD i 0))
          = ledgerBalanceR rnd initialCash (st.trades ++
            [⟨dates.getD i "", Action.buy, closes.getD i 0, (k : ℚ),
              rnd (st.cash - rnd ((k : ℚ) * closes.getD i 0))⟩]) := by
        rw [ledgerBalanceR_append, ← h1]
      exact ⟨hb, cashAfterMatchesR_append h2 hb⟩
    · rw [h]
      have hb : rnd (st.cash + rnd (st.shares * closes.getD i 0))
          = ledgerBalanceR rnd initialCash (st.trades ++
            [⟨dates.getD i "", Action.sell, closes.getD i 0, st.shares,
              rnd (st.cash + rnd (st.shares * closes.getD i 0))⟩]) := by
        rw [ledgerBalanceR_append, ← h1]
      exact ⟨hb, cashAfterMatchesR_append h2 hb⟩

theorem backtestR_ledger (rnd : ℚ → ℚ) (dates : List String) (closes : List ℚ)
    (sw lw : Int) (initialCash : ℚ) (dataStartIdx start : Int) :
    (backtestR rnd dates closes sw lw initialCash dataStartIdx start).finalValue
      = ledgerBalanceR rnd initialCash
          (backtestR rnd dates closes sw lw initialCash dataStartIdx start).trades ∧
    CashAfterMatchesR rnd initialCash
      (backtestR rnd dates closes sw lw initialCash dataStartIdx start).trades := by
  obtain ⟨h1, h2⟩ := backtestLoopR_ledger rnd dates closes sw lw initialCash start
  unfold backtestR settleR
  split
  · have hb : rnd ((backtestLoopR rnd dates closes sw lw initialCash start).cash +
        rnd ((backtestLoopR rnd dates closes sw lw initialCash start).shares *
          closes.getLastD 0))
        = ledgerBalanceR rnd initialCash
          ((backtestLoopR rnd dates closes sw lw initialCash start).trades ++
            [⟨dates.getLastD "", Action.finalLiquidation, closes.getLastD 0,
              (backtestLoopR rnd dates closes sw lw initialCash start).shares,
              rnd ((backtestLoopR rnd dates closes sw lw initialCash start).cash +
                rnd ((backtestLoopR rnd dates closes sw lw initialCash start).shares *
                  closes.getLastD 0))⟩]) := by
      rw [ledgerBalanceR_append, ← h1]
    exact ⟨hb, cashAfterMatchesR_append h2 hb⟩
  · exact ⟨h1, h2⟩

/-- C19 as stated fails on the program's arithmetic: on `roundTripCloses` with
windows 1 and 2 and initial cash 10000 the program buys 51 shares at the third
close and sells them at the fourth; the products `51 * price` are rounded, so the
`cashAfter` of the buy is not `10000 - 51 * price`, and the final value is not
the initial cash minus the buy plus the sell. -/
theorem rounded_ledger_counterexample :
    roundTripCloses.map longDouble = roundTripCloses ∧
    (backtestR longDouble (exampleDates.take 4) roundTripCloses 1 2 10000 0 0).trades.map
        (fun r => (r.action, r.shares, r.price))
      = [(Action.buy, 51, roundTripCloses.getD 2 0), (Action.sell, 51, roundTripCloses.getD 3 0)] ∧
    (backtestR longDouble (exampleDates.take 4) roundTripCloses 1 2 10000 0 0).finalValue
      ≠ 10000 - 51 * roundTripCloses.getD 2 0 + 51 * roundTripCloses.getD 3 0 ∧
    (backtestR longDouble (exampleDates.take 4) roundTripCloses 1 2 10000 0 0).finalValue
      ≠ ledgerBalance 10000
          (backtestR longDouble (exampleDates.take 4) roundTripCloses 1 2 10000 0 0).trades ∧
    ((backtestR longDouble (exampleDates.take 4) roundTripCloses 1 2 10000 0 0).trades.map
        (fun r => r.cashAfter)).getD 0 0
      ≠ 10000 - 51 * roundTripCloses.getD 2 0 := by
  decide!

/-- C19, amended: ledger accounting. For every call of `backtest` and every
rounding `rnd` of its arithmetic, the `cashAfter` of the record at each position
`k` is the running balance of the first `k + 1` records, obtained from the initial
cash by applying the records one at a time as the program does (a buy turns the
balance `b` into `rnd (b - rnd (shares * price))`, a sell or a final liquidation
into `rnd (b + rnd (shares * price))`), and the final value is that balance over
the whole ledger; in exact arithmetic the balance of a ledger is the initial cash
minus `shares * price` summed over its buy records plus `shares * price` summed
over its sell and final-liquidation records, and so are the final value and each
`cashAfter` of the exact `backtest`. -/
theorem ledger_accounting (rnd : ℚ → ℚ) (dates : List String) (closes : List ℚ)
    (sw lw : Int) (initialCash : ℚ) (dataStartIdx start : Int) :
    ((backtestR rnd dates closes sw lw initialCash dataStartIdx start).finalValue
        = ledgerBalanceR rnd initialCash
            (backtestR rnd dates closes sw lw initialCash dataStartIdx start).trades ∧
      ∀ (k : Nat) (r : TradeRecord),
        (backtestR rnd dates closes sw lw initialCash dataStartIdx start).trades[k]? = some r →
        r.cashAfter = ledgerBalanceR rnd initialCash
          ((backtestR rnd dates closes sw lw initialCash dataStartIdx start).trades.take
            (k + 1))) ∧
    (∀ (c : ℚ) (trades : List TradeRecord),
      ledgerBalanceR id c trades
        = c - ((trades.filter (fun r => decide (r.action = Action.buy))).map
                (fun r => r.shares * r.price)).sum
            + ((trades.filter (fun r => decide (r.action = Action.sell ∨
                  r.action = Action.finalLiquidation))).map
                    (fun r => r.shares * r.price)).sum) ∧
    ((backtest dates closes sw lw initialCash dataStartIdx start).finalValue
        = initialCash
          - (((backtest dates closes sw lw initialCash dataStartIdx start).trades.filter
                (fun r => decide (r.action = Action.buy))).map
                  (fun r => r.shares * r.price)).sum
          + (((backtest dates closes sw lw initialCash dataStartIdx start).trades.filter
                (fun r => decide (r.action = Action.sell ∨
                  r.action = Action.finalLiquidation))).map
                    (fun r => r.shares * r.price)).sum ∧
      ∀ (k : Nat) (r : TradeRecord),
        (backtest dates closes sw lw initialCash dataStartIdx start).trades[k]? = some r →
        r.cashAfter
          = initialCash
            - ((((backtest dates closes sw lw initialCash dataStartIdx start).trades.take
                  (k + 1)).filter (fun r => decide (r.action = Action.buy))).map
                    (fun r => r.shares * r.price)).sum
            + ((((backtest dates closes sw lw initialCash dataStartIdx start).trades.take
                  (k + 1)).filter (fun r => decide (r.action = Action.sell ∨
                    r.action = Action.finalLiquidation))).map
                      (fun r => r.shares * r.price)).sum) := by
  have hR := backtestR_ledger rnd dates closes sw lw initialCash dataStartIdx start
  have hid := backtestR_ledger id dates closes sw lw initialCash dataStartIdx start
  have hsplit : ∀ (c : ℚ) (trades : List TradeRecord),
      ledgerBalanceR id c trades
        = c - ((trades.filter (fun r => decide (r.action = Action.buy))).map
                (fun r => r.shares * r.price)).sum
            + ((trades.filter (fun r => decide (r.action = Action.sell ∨
                  r.action = Action.finalLiquidation))).map
                    (fun r => r.shares * r.price)).sum := by
    intro c trades
    rw [ledgerBalanceR_id, ledgerBalance_split]
  have hbt : backtestR id dates closes sw lw initialCash dataStartIdx start
      = backtest dates closes sw lw initialCash dataStartIdx start := rfl
  rw [hbt] at hid
  refine ⟨⟨hR.1, hR.2⟩, hsplit, ?_, fun k r hr => ?_⟩
  · rw [hid.1, hsplit]
  · rw [hid.2 k r hr, hsplit]

/-- C19, amended, on `roundTripCloses` in `long double` arithmetic: the final
value is the balance `rnd (rnd (10000 - rnd (51 * p2)) + rnd (51 * p3))`. -/
theorem ledger_accounting_witness :
    (backtestR longDouble (exampleDates.take 4) roundTripCloses 1 2 10000 0 0).finalValue
      = longDouble (longDouble (10000 - longDouble (51 * roundTripCloses.getD 2 0))
          + longDouble (51 * roundTripCloses.getD 3 0)) ∧
    (backtestR longDouble (exampleDates.take 4) roundTripCloses 1 2 10000 0 0).finalValue
      = ledgerBalanceR longDouble 10000
          (backtestR longDouble (exampleDates.take 4) roundTripCloses 1 2 10000 0 0).trades :=
  ⟨by decide!,
    (ledger_accounting longDouble (exampleDates.take 4) roundTripCloses 1 2 10000 0 0).1.1⟩

/-- C20: for every call of `backtest` the returned trade count is the number of
records of the returned ledger, buys, sells and the final liquidation together. -/
theorem tradeCount_eq_ledger_length (dates : List String) (closes : List ℚ) (sw lw : Int)
    (initialCash : ℚ) (dataStartIdx start : Int) :
    (backtest dates closes sw lw initialCash dataStartIdx start).tradeCount
      = (backtest dates closes sw lw initialCash dataStartIdx start).trades.length := by
  obtain ⟨-, -, h3⟩ := backtestLoop_ledger dates closes sw lw initialCash start
  unfold backtest settle
  split
  · simp [h3]
  · exact h3

/-! ## Bounds of the reads -/

theorem readAt_eq_getD {α : Type} (v : List α) (idx : Int) (d : α) (h0 : 0 ≤ idx)
    (h1 : idx < (v.length : Int)) : readAt v idx = some (v.getD idx.toNat d) := by
  have hlt : idx.toNat < v.length := by omega
  unfold readAt
  rw [if_pos h0, List.getElem?_eq_getElem hlt, List.getD_eq_getElem _ _ hlt]

theorem stepReadsChecked_eq {closes : List ℚ} {sw lw start : Int} {i : Nat}
    (hev : skipStep (computeMA closes sw) (computeMA closes lw) sw lw start i = false) :
    stepReadsChecked closes (computeMA closes sw) (computeMA closes lw) sw lw i
      = some (stepReads closes (computeMA closes sw) (computeMA closes lw) sw lw i) := by
  have hic : i < closes.length := evaluated_lt_closes hev
  obtain ⟨h1, h2, h3, h4, -⟩ := skipStep_eq_false hev
  unfold stepReadsChecked stepReads
  simp only
  rw [readAt_eq_getD (computeMA closes sw) _ 0 (by omega) h2,
    readAt_eq_getD (computeMA closes lw) _ 0 (by omega) h4,
    readAt_eq_getD (computeMA closes sw) _ 0 (by omega) (by omega),
    readAt_eq_getD (computeMA closes lw) _ 0 (by omega) (by omega),
    readAt_eq_getD closes (i : Int) 0 (by omega) (by omega)]
  simp only [Option.some_bind, Int.toNat_ofNat]

theorem tradeStepChecked_eq (dates : List String) (i : Nat) (hi : i < dates.length)
    (r : StepReads) (st : SimState) :
    tradeStepChecked dates i r st
      = some (tradeStep (dates.getD i "") r.currPrice r.prevShortMA r.prevLongMA r.currShortMA
          r.currLongMA st) := by
  unfold tradeStepChecked tradeStep
  rw [readAt_eq_getD dates (i : Int) "" (by omega) (by omega)]
  simp only [Option.some_bind, Int.toNat_ofNat]
  split
  · rfl
  · split <;> rfl

theorem backtestStepChecked_eq (dates : List String) (closes : List ℚ) (sw lw start : Int)
    (st : SimState) (i : Nat) (hi : i ∈ liveIndices start dates.length) :
    backtestStepChecked dates closes (computeMA closes sw) (computeMA closes lw) sw lw start st i
      = some (backtestStep dates closes (computeMA closes sw) (computeMA closes lw) sw lw
          start st i) := by
  unfold backtestStepChecked backtestStep
  cases hsk : skipStep (computeMA closes sw) (computeMA closes lw) sw lw start i with
  | true => simp
  | false =>
    simp only [Bool.false_eq_true, if_false]
    rw [stepReadsChecked_eq hsk, Option.some_bind,
      tradeStepChecked_eq dates i (mem_liveIndices hi).2.1]

theorem loopChecked_eq (stepC : SimState → Nat → Option SimState)
    (step : SimState → Nat → SimState) (l : List Nat)
    (h : ∀ st i, i ∈ l → stepC st i = some (step st i)) (st : SimState) :
    loopChecked stepC l st = some (l.foldl step st) := by
  induction l generalizing st with
  | nil => rfl
  | cons i rest ih =>
    rw [loopChecked, h st i (List.mem_cons_self i rest), Option.some_bind, List.foldl_cons]
    exact ih (fun st' j hj => h st' j (List.mem_cons_of_mem i hj)) (step st i)

theorem backtestLoop_nonempty (dates : List String) (closes : List ℚ) (sw lw : Int)
    (initialCash : ℚ) (start : Int)
    (h : (backtestLoop dates closes sw lw initialCash start).shares ≠ 0) :
    dates ≠ [] ∧ closes ≠ [] := by
  obtain ⟨hrec, hne⟩ := backtestLoop_records dates closes sw lw initialCash start
  obtain ⟨r, hr⟩ := List.exists_mem_of_ne_nil _ (hne h)
  obtain ⟨-, i, -, hid, -, hic⟩ := hrec r hr
  constructor
  · intro hd; rw [hd] at hid; exact absurd hid (by simp)
  · intro hc; rw [hc] at hic; simp at hic

/-- The bounds-checked `backtest` never fails and returns what `backtest`
returns. -/
theorem backtestChecked_eq (dates : List String) (closes : List ℚ) (sw lw : Int)
    (initialCash : ℚ) (dataStartIdx start : Int) :
    backtestChecked dates closes sw lw initialCash start
      = some (backtest dates closes sw lw initialCash dataStartIdx start) := by
  unfold backtestChecked
  rw [loopChecked_eq _ (backtestStep dates closes (computeMA closes sw) (computeMA closes lw)
    sw lw start) _ (fun st i hi => backtestStepChecked_eq dates closes sw lw start st i hi)]
  rw [Option.some_bind]
  show settleChecked dates closes sw lw initialCash
      (backtestLoop dates closes sw lw initialCash start) = _
  unfold settleChecked backtest settle
  split
  · next hpos =>
    obtain ⟨hd, hc⟩ := backtestLoop_nonempty dates closes sw lw initialCash start
      (ne_of_gt hpos)
    rw [getLastD_is_last closes 0 hc, getLastD_is_last dates "" hd]
    rfl
  · rfl

/-- C16: index safety. For windows of at least one and a live start of at least
zero, with no assumption on the lengths of `dates` and `closes`, the bounds-checked
`backtest` never fails and returns what `backtest` returns: in the loop the reads
`shortMA[shortMAIdx]`, `shortMA[shortMAIdx - 1]`, `longMA[longMAIdx]`,
`longMA[longMAIdx - 1]`, `closes[i]` and `dates[i]` are inside their vectors, and the
settlement calls `closes.back()` and `dates.back()` on non-empty vectors only. -/
theorem index_safety (dates : List String) (closes : List ℚ) (sw lw : Int)
    (hsw : 1 ≤ sw) (hlw : 1 ≤ lw) (initialCash : ℚ) (dataStartIdx start : Int)
    (hstart : 0 ≤ start) :
    backtestChecked dates closes sw lw initialCash start
      = some (backtest dates closes sw lw initialCash dataStartIdx start) := by
  have hloop : loopChecked
      (backtestStepChecked dates closes (computeMA closes sw) (computeMA closes lw) sw lw start)
      (liveIndices start dates.length) (initialState initialCash)
      = some (backtestLoop dates closes sw lw initialCash start) :=
    loopChecked_eq _ _ _
      (fun st i hi => backtestStepChecked_eq dates closes sw lw start st i hi) _
  unfold backtestChecked
  rw [hloop, Option.some_bind]
  unfold settleChecked backtest settle
  split
  · next hpos =>
    obtain ⟨hd, hc⟩ := backtestLoop_nonempty dates closes sw lw initialCash start
      (ne_of_gt hpos)
    rw [getLastD_is_last closes 0 hc, getLastD_is_last dates "" hd]
    rfl
  · rfl

/-- C16 on the first six example prices, where the loop reads at indices 3, 4
and 5 and the settlement liquidates an open position. -/
theorem index_safety_witness :
    (1 : Int) ≤ 2 ∧ (1 : Int) ≤ 3 ∧ (0 : Int) ≤ 0 ∧
    backtestChecked (exampleDates.take 6) (examplePrices.take 6) 2 3 100 0
      = some (backtest (exampleDates.take 6) (examplePrices.take 6) 2 3 100 0 0) :=
  ⟨by decide, by decide, by decide,
    index_safety (exampleDates.take 6) (examplePrices.take 6) 2 3 (by decide) (by decide)
      100 0 0 (by decide)⟩

/-! ## Alignment and insufficient history -/

theorem computeMA_length_nat (closes : List ℚ) (w : Nat) :
    (computeMA closes (w : Int)).length
      = if closes.length < w then 0 else closes.length - w + 1 := by
  rw [computeMA_length_general]
  by_cases h : closes.length < w
  · rw [if_pos (Or.inr (by omega)), if_pos h]
  · rw [if_neg (by omega), if_neg h, Int.toNat_ofNat]

theorem skipStep_iff (closes : List ℚ) (s l : Nat) (start : Int) (i : Nat) :
    skipStep (computeMA closes (s : Int)) (computeMA closes (l : Int)) s l start i = true ↔
      ((i : Int) = start ∨ i < s ∨ i < l ∨ closes.length ≤ i) := by
  have h1 := computeMA_length_nat closes s
  have h2 := computeMA_length_nat closes l
  unfold skipStep
  simp only
  rw [h1, h2]
  split_ifs <;> simp <;> omega

theorem computeMA_getD (closes : List ℚ) (w : Nat) (hw : 1 ≤ w) (j : Nat)
    (hj : j + w ≤ closes.length) :
    (computeMA closes (w : Int)).getD j 0 = windowMean closes w j := by
  rw [computeMA_eq closes w hw (by omega), List.getD_eq_getElem?_getD, List.getElem?_map,
    List.getElem?_range (by omega)]
  rfl

/-- C15 as stated fails on the program's arithmetic: on five equal closes (the
`long double` nearest 189.95) with five dates, windows 1 and 2 and live start 0,
step 2 is an evaluated live step, and `currLong`, entry 1 of the running-sum
series, is below the mean of `closes[1 .. 2]`, which is the close itself: adding
the incoming close to the running sum rounds, and subtracting the leaving one
does not undo it. The short average is exact, so the program sees a golden cross
and trades, where exact arithmetic sees two equal averages and no trade. -/
theorem running_sum_drift_counterexample :
    flatCloses.map longDouble = flatCloses ∧
    (exampleDates.take 5).length = flatCloses.length ∧
    2 ∈ liveIndices 0 (exampleDates.take 5).length ∧
    skipStep (computeMAR longDouble flatCloses 1) (computeMAR longDouble flatCloses 2)
      1 2 0 2 = false ∧
    windowMean flatCloses 2 (2 + 1 - 2) = flatCloses.getD 2 0 ∧
    (stepReads flatCloses (computeMAR longDouble flatCloses 1)
      (computeMAR longDouble flatCloses 2) 1 2 2).currLongMA
        < windowMean flatCloses 2 (2 + 1 - 2) ∧
    (backtestR longDouble (exampleDates.take 5) flatCloses 1 2 10000 0 0).trades.map
      (fun r => (r.action, r.shares))
        = [(Action.buy, 52), (Action.finalLiquidation, 52)] ∧
    (backtest (exampleDates.take 5) flatCloses 1 2 10000 0 0).trades = [] := by
  decide!

/-- C15, amended: for windows `s, l ≥ 1`, aligned `dates` and `closes` and a live
step `i` of `backtest`: the step is skipped, whatever the rounding of the
averages, exactly when `i` is the first live step or one of the four slices would
start before index 0 (`i < s` or `i < l`); and in exact arithmetic, at a step that
is not skipped, `currShort` is the mean of `closes[i-s+1 .. i]`, `prevShort` the
mean of `closes[i-s .. i-1]`, `currLong` the mean of `closes[i-l+1 .. i]` and
`prevLong` the mean of `closes[i-l .. i-1]`, all four slices lying inside
`closes`. -/
theorem alignment (dates : List String) (closes : List ℚ) (s l : Nat) (hs : 1 ≤ s)
    (hl : 1 ≤ l) (hlen : dates.length = closes.length) (start : Int) (i : Nat)
    (hi : i ∈ liveIndices start dates.length) :
    (∀ rnd : ℚ → ℚ,
      skipStep (computeMAR rnd closes (s : Int)) (computeMAR rnd closes (l : Int)) s l start i
          = true ↔ ((i : Int) = start ∨ i < s ∨ i < l)) ∧
    (skipStep (computeMA closes (s : Int)) (computeMA closes (l : Int)) s l start i = false →
      s ≤ i ∧ l ≤ i ∧ i < closes.length ∧
      (stepReads closes (computeMA closes (s : Int)) (computeMA closes (l : Int)) s l
        i).currShortMA = windowMean closes s (i + 1 - s) ∧
      (stepReads closes (computeMA closes (s : Int)) (computeMA closes (l : Int)) s l
        i).prevShortMA = windowMean closes s (i - s) ∧
      (stepReads closes (computeMA closes (s : Int)) (computeMA closes (l : Int)) s l
        i).currLongMA = windowMean closes l (i + 1 - l) ∧
      (stepReads closes (computeMA closes (s : Int)) (computeMA closes (l : Int)) s l
        i).prevLongMA = windowMean closes l (i - l)) := by
  have hiff := skipStep_iff closes s l start i
  have hilt : i < closes.length := by have := (mem_liveIndices hi).2.1; omega
  refine ⟨fun rnd => ?_, fun hev => ?_⟩
  · rw [skipStep_rounded rnd, hiff]
    constructor
    · rintro (h | h | h | h)
      · exact Or.inl h
      · exact Or.inr (Or.inl h)
      · exact Or.inr (Or.inr h)
      · omega
    · rintro (h | h | h)
      · exact Or.inl h
      · exact Or.inr (Or.inl h)
      · exact Or.inr (Or.inr (Or.inl h))
  have hn : ¬ ((i : Int) = start ∨ i < s ∨ i < l ∨ closes.length ≤ i) := by
    rw [← hiff, hev]; decide
  have h1 : s ≤ i := by omega
  have h2 : l ≤ i := by omega
  have e1 : ((i : Int) - ((s : Int) - 1)).toNat = i + 1 - s := by omega
  have e2 : ((i : Int) - ((s : Int) - 1) - 1).toNat = i - s := by omega
  have e3 : ((i : Int) - ((l : Int) - 1)).toNat = i + 1 - l := by omega
  have e4 : ((i : Int) - ((l : Int) - 1) - 1).toNat = i - l := by omega
  refine ⟨h1, h2, hilt, ?_, ?_, ?_, ?_⟩
  · show (computeMA closes (s : Int)).getD ((i : Int) - ((s : Int) - 1)).toNat 0 = _
    rw [e1]; exact computeMA_getD closes s hs _ (by omega)
  · show (computeMA closes (s : Int)).getD ((i : Int) - ((s : Int) - 1) - 1).toNat 0 = _
    rw [e2]; exact computeMA_getD closes s hs _ (by omega)
  · show (computeMA closes (l : Int)).getD ((i : Int) - ((l : Int) - 1)).toNat 0 = _
    rw [e3]; exact computeMA_getD closes l hl _ (by omega)
  · show (computeMA closes (l : Int)).getD ((i : Int) - ((l : Int) - 1) - 1).toNat 0 = _
    rw [e4]; exact computeMA_getD closes l hl _ (by omega)

/-- C15, amended, at index 3 of the example scenario with windows 2 and 3: the
step is evaluated and, in exact arithmetic, reads the means 11 and 10. -/
theorem alignment_witness :
    1 ≤ 2 ∧ 1 ≤ 3 ∧ exampleDates.length = examplePrices.length ∧
    3 ∈ liveIndices 0 exampleDates.length ∧
    skipStep (computeMA examplePrices ((2 : Nat) : Int)) (computeMA examplePrices ((3 : Nat) : Int))
      ((2 : Nat) : Int) ((3 : Nat) : Int) 0 3 = false ∧
    (stepReads examplePrices (computeMA examplePrices ((2 : Nat) : Int))
      (computeMA examplePrices ((3 : Nat) : Int)) ((2 : Nat) : Int) ((3 : Nat) : Int)
        3).currShortMA = windowMean examplePrices 2 (3 + 1 - 2) ∧
    windowMean examplePrices 2 (3 + 1 - 2) = 11 ∧
    (stepReads examplePrices (computeMA examplePrices ((2 : Nat) : Int))
      (computeMA examplePrices ((3 : Nat) : Int)) ((2 : Nat) : Int) ((3 : Nat) : Int)
        3).prevLongMA = windowMean examplePrices 3 (3 - 3) ∧
    windowMean examplePrices 3 (3 - 3) = 10 := by
  have h := (alignment exampleDates examplePrices 2 3 (by decide) (by decide) (by decide) 0 3
    (by decide)).2 (by decide!)
  exact ⟨by decide, by decide, by decide, by decide, by decide!, h.2.2.2.1, by decide!,
    h.2.2.2.2.2.2, by decide!⟩

theorem skipStep_of_empty (shortMA longMA : List ℚ) (sw lw start : Int) (i : Nat)
    (h : shortMA.length = 0 ∨ longMA.length = 0) :
    skipStep shortMA longMA sw lw start i = true := by
  unfold skipStep
  simp only
  split_ifs <;> first | rfl | omega

/-- C17: insufficient history is not a failure. For windows of at least one, when
the price series is shorter than the short window or shorter than the long window,
`backtest` returns (its bounds-checked form succeeds) with an empty ledger, trade
count 0 and a final value equal to the initial cash. -/
theorem insufficient_history (dates : List String) (closes : List ℚ) (sw lw : Int)
    (hsw : 1 ≤ sw) (hlw : 1 ≤ lw)
    (hshort : (closes.length : Int) < sw ∨ (closes.length : Int) < lw)
    (initialCash : ℚ) (dataStartIdx start : Int) :
    backtestChecked dates closes sw lw initialCash start
      = some (backtest dates closes sw lw initialCash dataStartIdx start) ∧
    (backtest dates closes sw lw initialCash dataStartIdx start).trades = [] ∧
    (backtest dates closes sw lw initialCash dataStartIdx start).tradeCount = 0 ∧
    (backtest dates closes sw lw initialCash dataStartIdx start).finalValue = initialCash := by
  have hempty : (computeMA closes sw).length = 0 ∨ (computeMA closes lw).length = 0 := by
    rcases hshort with h | h
    · left; rw [computeMA_length_general, if_pos (Or.inr h)]
    · right; rw [computeMA_length_general, if_pos (Or.inr h)]
  have hloop : backtestLoop dates closes sw lw initialCash start = initialState initialCash := by
    refine backtestLoop_invariant dates closes sw lw initialCash start
      (fun st => st = initialState initialCash) rfl ?_
    intro st i _ hst
    unfold backtestStep
    rw [skipStep_of_empty _ _ sw lw start i hempty]
    simpa using hst
  refine ⟨backtestChecked_eq dates closes sw lw initialCash dataStartIdx start, ?_⟩
  unfold backtest settle
  rw [hloop]
  simp [initialState]

/-- C17 on two prices with windows 2 and 3: the long window exceeds the series. -/
theorem insufficient_history_witness :
    (1 : Int) ≤ 2 ∧ (1 : Int) ≤ 3 ∧
    (((examplePrices.take 2).length : Int) < 2 ∨ ((examplePrices.take 2).length : Int) < 3) ∧
    (backtest (exampleDates.take 2) (examplePrices.take 2) 2 3 100 0 0).trades = [] ∧
    (backtest (exampleDates.take 2) (examplePrices.take 2) 2 3 100 0 0).tradeCount = 0 ∧
    (backtest (exampleDates.take 2) (examplePrices.take 2) 2 3 100 0 0).finalValue = 100 :=
  ⟨by decide, by decide, by decide,
    (insufficient_history (exampleDates.take 2) (examplePrices.take 2) 2 3 (by decide)
      (by decide) (by decide) 100 0 0).2⟩

/-! ## The parameter sweep -/

theorem mem_intRange (lo hi x : Int) : x ∈ intRange lo hi ↔ lo ≤ x ∧ x ≤ hi := by
  unfold intRange
  simp only [List.mem_map, List.mem_range]
  constructor
  · rintro ⟨k, hk, rfl⟩
    omega
  · intro h
    exact ⟨(x - lo).toNat, by omega, by omega⟩

theorem length_intRange (lo hi : Int) : (intRange lo hi).length = (hi + 1 - lo).toNat := by
  simp [intRange]

theorem nodup_intRange (lo hi : Int) : (intRange lo hi).Nodup := by
  unfold intRange
  refine List.Nodup.map ?_ (List.nodup_range _)
  intro a b hab
  simp only at hab
  omega

/-- The state of the date lookup after the first `k` labels, for one of the two
dates: the index is `-1` and the date is not among them, or the index points at an
occurrence among them. -/
theorem findDateRange_prefix (allDates : List String) (startDate endDate : String) (k : Nat) :
    (((List.range k).foldl
        (fun (p : Int × Int) i =>
          ((if allDates.getD i "" = startDate then (i : Int) else p.1),
           (if allDates.getD i "" = endDate then (i : Int) else p.2)))
        (-1, -1)).1 = -1 ∧ (∀ j, j < k → allDates.getD j "" ≠ startDate) ∨
      ∃ j : Nat, j < k ∧ allDates.getD j "" = startDate ∧
        ((List.range k).foldl
          (fun (p : Int × Int) i =>
            ((if allDates.getD i "" = startDate then (i : Int) else p.1),
             (if allDates.getD i "" = endDate then (i : Int) else p.2)))
          (-1, -1)).1 = (j : Int)) ∧
    (((List.range k).foldl
        (fun (p : Int × Int) i =>
          ((if allDates.getD i "" = startDate then (i : Int) else p.1),
           (if allDates.getD i "" = endDate then (i : Int) else p.2)))
        (-1, -1)).2 = -1 ∧ (∀ j, j < k → allDates.getD j "" ≠ endDate) ∨
      ∃ j : Nat, j < k ∧ allDates.getD j "" = endDate ∧
        ((List.range k).foldl
          (fun (p : Int × Int) i =>
            ((if allDates.getD i "" = startDate then (i : Int) else p.1),
             (if allDates.getD i "" = endDate then (i : Int) else p.2)))
          (-1, -1)).2 = (j : Int)) := by
  induction k with
  | zero => exact ⟨Or.inl ⟨rfl, fun j hj => absurd hj (Nat.not_lt_zero j)⟩,
      Or.inl ⟨rfl, fun j hj => absurd hj (Nat.not_lt_zero j)⟩⟩
  | succ k ih =>
    rw [List.range_succ, List.foldl_append]
    simp only [List.foldl_cons, List.foldl_nil]
    obtain ⟨h1, h2⟩ := ih
    constructor
    · by_cases hk : allDates.getD k "" = startDate
      · exact Or.inr ⟨k, Nat.lt_succ_self k, hk, by rw [if_pos hk]⟩
      · rw [if_neg hk]
        rcases h1 with ⟨e, hall⟩ | ⟨j, hj, hd, e⟩
        · refine Or.inl ⟨e, fun j hj => ?_⟩
          rcases Nat.lt_succ_iff_lt_or_eq.mp hj with h | h
          · exact hall j h
          · rw [h]; exact hk
        · exact Or.inr ⟨j, Nat.lt_succ_of_lt hj, hd, e⟩
    · by_cases hk : allDates.getD k "" = endDate
      · exact Or.inr ⟨k, Nat.lt_succ_self k, hk, by rw [if_pos hk]⟩
      · rw [if_neg hk]
        rcases h2 with ⟨e, hall⟩ | ⟨j, hj, hd, e⟩
        · refine Or.inl ⟨e, fun j hj => ?_⟩
          rcases Nat.lt_succ_iff_lt_or_eq.mp hj with h | h
          · exact hall j h
          · rw [h]; exact hk
        · exact Or.inr ⟨j, Nat.lt_succ_of_lt hj, hd, e⟩

theorem mem_iff_getD (allDates : List String) (d : String) :
    d ∈ allDates ↔ ∃ j, j < allDates.length ∧ allDates.getD j "" = d := by
  rw [List.mem_iff_getElem]
  constructor
  · rintro ⟨j, hj, h⟩
    exact ⟨j, hj, by rw [List.getD_eq_getElem _ _ hj]; exact h⟩
  · rintro ⟨j, hj, h⟩
    exact ⟨j, hj, by rw [List.getD_eq_getElem _ _ hj] at h; exact h⟩

/-- The date lookup: an index is `-1` exactly when its date is not among the
labels, and otherwise it is the position of an occurrence of its date. -/
theorem findDateRange_spec (allDates : List String) (startDate endDate : String) :
    ((findDateRange allDates startDate endDate).1 = -1 ↔ startDate ∉ allDates) ∧
    ((findDateRange allDates startDate endDate).2 = -1 ↔ endDate ∉ allDates) ∧
    ((findDateRange allDates startDate endDate).1 ≠ -1 →
      ∃ j : Nat, (findDateRange allDates startDate endDate).1 = (j : Int) ∧
        j < allDates.length ∧ allDates.getD j "" = startDate) ∧
    ((findDateRange allDates startDate endDate).2 ≠ -1 →
      ∃ j : Nat, (findDateRange allDates startDate endDate).2 = (j : Int) ∧
        j < allDates.length ∧ allDates.getD j "" = endDate) := by
  obtain ⟨h1, h2⟩ := findDateRange_prefix allDates startDate endDate allDates.length
  unfold findDateRange
  simp only [mem_iff_getD]
  refine ⟨?_, ?_, ?_, ?_⟩
  · rcases h1 with ⟨e, hall⟩ | ⟨j, hj, hd, e⟩
    · exact ⟨fun _ => fun ⟨j, hj, hd⟩ => hall j hj hd, fun _ => e⟩
    · exact ⟨fun h => by rw [e] at h; omega, fun h => absurd ⟨j, hj, hd⟩ h⟩
  · rcases h2 with ⟨e, hall⟩ | ⟨j, hj, hd, e⟩
    · exact ⟨fun _ => fun ⟨j, hj, hd⟩ => hall j hj hd, fun _ => e⟩
    · exact ⟨fun h => by rw [e] at h; omega, fun h => absurd ⟨j, hj, hd⟩ h⟩
  · intro hne
    rcases h1 with ⟨e, -⟩ | ⟨j, hj, hd, e⟩
    · exact absurd e hne
    · exact ⟨j, e, hj, hd⟩
  · intro hne
    rcases h2 with ⟨e, -⟩ | ⟨j, hj, hd, e⟩
    · exact absurd e hne
    · exact ⟨j, e, hj, hd⟩

/-- C11: the date check of the sweep. If the start date or the end date is not
among the loaded labels the sweep ends with the error `return 1`, which carries no
result and is taken before the double loop calls `backtest`; if both dates occur
the sweep does not end with an error: it returns the sorted results of the double
loop. -/
theorem sweep_date_check (allDates : List String) (allCloses : List ℚ)
    (startDate endDate : String) (initialCash : ℚ) (minMA maxMA : Int) :
    ((startDate ∉ allDates ∨ endDate ∉ allDates) →
      sweep allDates allCloses startDate endDate initialCash minMA maxMA = Except.error 1) ∧
    ((startDate ∈ allDates ∧ endDate ∈ allDates) →
      sweep allDates allCloses startDate endDate initialCash minMA maxMA
        = Except.ok (sortResults (collectResults allDates allCloses initialCash
            (findDateRange allDates startDate endDate).1
            (findDateRange allDates startDate endDate).2 minMA maxMA))) := by
  obtain ⟨h1, h2, -, -⟩ := findDateRange_spec allDates startDate endDate
  unfold sweep
  simp only
  constructor
  · intro h
    rw [if_pos]
    rcases h with h | h
    · exact Or.inl (h1.mpr h)
    · exact Or.inr (h2.mpr h)
  · rintro ⟨hs, he⟩
    rw [if_neg]
    rintro (h | h)
    · exact (h1.mp h) hs
    · exact (h2.mp h) he

/-- C11 on the example dates: a start date that is not loaded gives the error,
and a loaded pair of dates gives a ranked list. -/
theorem sweep_date_check_witness :
    "1/19/2024" ∉ exampleDates ∧
    sweep exampleDates examplePrices "1/19/2024" "1/9/2024" 100 1 3 = Except.error 1 ∧
    ("1/4/2024" ∈ exampleDates ∧ "1/9/2024" ∈ exampleDates) ∧
    sweep exampleDates examplePrices "1/4/2024" "1/9/2024" 100 1 3
      = Except.ok (sortResults (collectResults exampleDates examplePrices 100
          (findDateRange exampleDates "1/4/2024" "1/9/2024").1
          (findDateRange exampleDates "1/4/2024" "1/9/2024").2 1 3)) :=
  ⟨by decide,
    (sweep_date_check exampleDates examplePrices "1/19/2024" "1/9/2024" 100 1 3).1
      (Or.inl (by decide)),
    by decide,
    (sweep_date_check exampleDates examplePrices "1/4/2024" "1/9/2024" 100 1 3).2
      (by decide)⟩

theorem orderedInsert_descending (a : TradeResult) (l : List TradeResult)
    (hl : l.Pairwise (fun x y => y.finalValue ≤ x.finalValue)) :
    (List.orderedInsert (fun a b : TradeResult => a.finalValue > b.finalValue) a l).Pairwise
      (fun x y => y.finalValue ≤ x.finalValue) := by
  induction l with
  | nil => simp
  | cons b l ih =>
    rw [List.pairwise_cons] at hl
    rw [List.orderedInsert]
    split
    · next hab =>
      refine List.pairwise_cons.mpr ⟨fun x hx => ?_, List.pairwise_cons.mpr hl⟩
      rcases List.mem_cons.mp hx with hx | hx
      · rw [hx]; exact le_of_lt hab
      · exact le_trans (hl.1 x hx) (le_of_lt hab)
    · next hab =>
      refine List.pairwise_cons.mpr ⟨fun x hx => ?_, ih hl.2⟩
      rcases (List.mem_orderedInsert _).mp hx with hx | hx
      · rw [hx]; exact not_lt.mp hab
      · exact hl.1 x hx

theorem sortResults_descending (l : List TradeResult) :
    (sortResults l).Pairwise (fun x y => y.finalValue ≤ x.finalValue) := by
  unfold sortResults
  induction l with
  | nil => simp
  | cons a l ih =>
    rw [List.insertionSort]
    exact orderedInsert_descending a _ ih

/-- C12: the ranked list of a sweep that passes the date check is a permutation
of the results the double loop collected, and the final value of each entry is at
least the final value of the next entry. -/
theorem sweep_ranked (allDates : List String) (allCloses : List ℚ)
    (startDate endDate : String) (initialCash : ℚ) (minMA maxMA : Int)
    (results : List TradeResult)
    (h : sweep allDates allCloses startDate endDate initialCash minMA maxMA
      = Except.ok results) :
    results.Perm (collectResults allDates allCloses initialCash
      (findDateRange allDates startDate endDate).1
      (findDateRange allDates startDate endDate).2 minMA maxMA) ∧
    ∀ (i : Nat) (a b : TradeResult), results[i]? = some a → results[i + 1]? = some b →
      a.finalValue ≥ b.finalValue := by
  unfold sweep at h
  simp only at h
  split at h
  · exact absurd h (by simp)
  · simp only [Except.ok.injEq] at h
    subst h
    refine ⟨List.perm_insertionSort _ _, fun i a b ha hb => ?_⟩
    have hp := sortResults_descending (collectResults allDates allCloses initialCash
      (findDateRange allDates startDate endDate).1
      (findDateRange allDates startDate endDate).2 minMA maxMA)
    rw [List.pairwise_iff_getElem] at hp
    obtain ⟨hi, rfl⟩ := List.getElem?_eq_some.mp ha
    obtain ⟨hj, rfl⟩ := List.getElem?_eq_some.mp hb
    exact hp i (i + 1) hi hj (Nat.lt_succ_self i)

/-- C12 on the example series with windows 1 to 3: the nine results are ranked
with final values 100 (six times) and then 76 (three times). -/
theorem sweep_ranked_witness :
    sweep exampleDates examplePrices "1/1/2024" "1/9/2024" 100 1 3
      = Except.ok (sortResults (collectResults exampleDates examplePrices 100 0 8 1 3)) ∧
    (sortResults (collectResults exampleDates examplePrices 100 0 8 1 3)).map
      (fun r => r.finalValue) = [100, 100, 100, 100, 100, 100, 76, 76, 76] ∧
    (sortResults (collectResults exampleDates examplePrices 100 0 8 1 3)).Perm
      (collectResults exampleDates examplePrices 100
        (findDateRange exampleDates "1/1/2024" "1/9/2024").1
        (findDateRange exampleDates "1/1/2024" "1/9/2024").2 1 3) :=
  ⟨by rfl, by decide!,
    (sweep_ranked exampleDates examplePrices "1/1/2024" "1/9/2024" 100 1 3
      (sortResults (collectResults exampleDates examplePrices 100 0 8 1 3)) (by rfl)).1⟩

theorem backtest_windows (dates : List String) (closes : List ℚ) (sw lw : Int)
    (initialCash : ℚ) (dataStartIdx start : Int) :
    (backtest dates closes sw lw initialCash dataStartIdx start).shortMA = sw ∧
    (backtest dates closes sw lw initialCash dataStartIdx start).longMA = lw := by
  unfold backtest settle
  split <;> exact ⟨rfl, rfl⟩

theorem collectResults_pairs (allDates : List String) (allCloses : List ℚ) (initialCash : ℚ)
    (startIdx endIdx minMA maxMA : Int) :
    (collectResults allDates allCloses initialCash startIdx endIdx minMA maxMA).map
        (fun r => (r.shortMA, r.longMA))
      = List.product (intRange minMA maxMA) (intRange minMA maxMA) := by
  unfold collectResults List.product
  rw [List.map_flatMap]
  congr 1
  funext s
  rw [List.map_map]
  congr 1
  funext l
  simp only [Function.comp, runCombination]
  rw [(backtest_windows _ _ s l initialCash _ _).1, (backtest_windows _ _ s l initialCash _ _).2]

/-- C14: for a window range `minMA ≤ maxMA` the double loop of the sweep collects
exactly `(maxMA - minMA + 1)^2` results; their `(shortMA, longMA)` fields, in
order, are the pairs of the square `[minMA, maxMA] × [minMA, maxMA]` with `shortMA`
outer, each pair once, and every pair of the square is among them, those with
`shortMA ≥ longMA` too. -/
theorem sweep_collects_all_pairs (allDates : List String) (allCloses : List ℚ)
    (initialCash : ℚ) (startIdx endIdx minMA maxMA : Int) (hrange : minMA ≤ maxMA) :
    ((collectResults allDates allCloses initialCash startIdx endIdx minMA maxMA).length : Int)
      = (maxMA - minMA + 1) ^ 2 ∧
    (collectResults allDates allCloses initialCash startIdx endIdx minMA maxMA).map
        (fun r => (r.shortMA, r.longMA))
      = (intRange minMA maxMA).flatMap (fun s => (intRange minMA maxMA).map (fun l => (s, l))) ∧
    ((collectResults allDates allCloses initialCash startIdx endIdx minMA maxMA).map
        (fun r => (r.shortMA, r.longMA))).Nodup ∧
    ∀ s l : Int,
      (s, l) ∈ (collectResults allDates allCloses initialCash startIdx endIdx minMA maxMA).map
          (fun r => (r.shortMA, r.longMA))
        ↔ (minMA ≤ s ∧ s ≤ maxMA) ∧ (minMA ≤ l ∧ l ≤ maxMA) := by
  have hp := collectResults_pairs allDates allCloses initialCash startIdx endIdx minMA maxMA
  refine ⟨?_, hp, ?_, ?_⟩
  · have hlen := congrArg List.length hp
    have hprod : (List.product (intRange minMA maxMA) (intRange minMA maxMA)).length
        = (intRange minMA maxMA).length * (intRange minMA maxMA).length :=
      List.length_product _ _
    rw [List.length_map, hprod, length_intRange] at hlen
    rw [hlen, Nat.cast_mul, Int.toNat_of_nonneg (by omega)]
    ring
  · rw [hp]
    exact List.Nodup.product (nodup_intRange _ _) (nodup_intRange _ _)
  · intro s l
    have hm : (s, l) ∈ List.product (intRange minMA maxMA) (intRange minMA maxMA)
        ↔ s ∈ intRange minMA maxMA ∧ l ∈ intRange minMA maxMA := List.mem_product
    rw [hp, hm, mem_intRange, mem_intRange]

/-- C14 on windows 1 to 3: nine results, with the pairs in loop order. -/
theorem sweep_collects_all_pairs_witness :
    (1 : Int) ≤ 3 ∧
    ((collectResults exampleDates examplePrices 100 0 8 1 3).length : Int) = (3 - 1 + 1) ^ 2 ∧
    (collectResults exampleDates examplePrices 100 0 8 1 3).map (fun r => (r.shortMA, r.longMA))
      = [(1, 1), (1, 2), (1, 3), (2, 1), (2, 2), (2, 3), (3, 1), (3, 2), (3, 3)] := by
  have h := sweep_collects_all_pairs exampleDates examplePrices 100 0 8 1 3 (by decide)
  refine ⟨by decide, h.1, ?_⟩
  rw [h.2.1]
  decide

/-- The extraction loop copies the contiguous range of the vector from index `a`
to index `endIdx`, both included. -/
theorem slice_eq_drop_take {α : Type} (v : List α) (d : α) (a endIdx : Int) (ha : 0 ≤ a)
    (he : endIdx < (v.length : Int)) :
    (intRange a endIdx).map (fun i => v.getD i.toNat d)
      = (v.drop a.toNat).take (endIdx + 1 - a).toNat := by
  apply List.ext_getElem?
  intro k
  unfold intRange
  rw [List.map_map, List.getElem?_map]
  by_cases hk : k < (endIdx + 1 - a).toNat
  · have hidx : (a + (k : Int)).toNat = a.toNat + k := by omega
    have hlt : a.toNat + k < v.length := by omega
    rw [List.getElem?_range hk, List.getElem?_take_of_lt hk, List.getElem?_drop,
      List.getElem?_eq_getElem hlt]
    simp only [Option.map_some', Function.comp, hidx, List.getD_eq_getElem _ _ hlt]
  · rw [List.getElem?_eq_none (by simpa using hk), List.getElem?_eq_none]
    · rfl
    · simp only [List.length_take, List.length_drop]
      omega

/-- C13 as stated fails: on `descendingDates` the lookup finds the start date
"1/1/2024" at index 1 and the end date "12/31/2024" at index 0, the date check
passes, and for windows 1 and 1 the extraction loop from index 1 to index 0 copies
nothing: the sub-series is empty, the live offset is 0, and the sub-series has no
entry at the live offset. -/
theorem slice_start_counterexample :
    findDateRange descendingDates "1/1/2024" "12/31/2024" = (1, 0) ∧
    (extractSlice descendingDates descendingCloses 1 0 1 1).dates = [] ∧
    (extractSlice descendingDates descendingCloses 1 0 1 1).outputStartIdx = 0 ∧
    (extractSlice descendingDates descendingCloses 1 0 1 1).dates[0]? ≠ some "1/1/2024" := by
  decide!

/-- C13, amended: for a window pair and the indices `startIdx`, `endIdx` found by
the date lookup, `backtest` is called on the sub-series that is exactly the full
series from index `max(0, startIdx - (max(short, long) - 1))` to index `endIdx`
inclusive, with the live offset `startIdx` minus that first index; and when
`startIdx ≤ endIdx` and the longer window is at least one, the entry of the
sub-series at the live offset is the entry of the evaluation start date. -/
theorem sweep_slice (allDates : List String) (allCloses : List ℚ)
    (startDate endDate : String) (initialCash : ℚ) (short long : Int) (startIdx endIdx : Int)
    (hlen : allCloses.length = allDates.length)
    (hfind : findDateRange allDates startDate endDate = (startIdx, endIdx))
    (hs : startIdx ≠ -1) (he : endIdx ≠ -1) :
    runCombination allDates allCloses initialCash startIdx endIdx short long
      = backtest (extractSlice allDates allCloses startIdx endIdx short long).dates
          (extractSlice allDates allCloses startIdx endIdx short long).closes short long
          initialCash (extractSlice allDates allCloses startIdx endIdx short long).dataStartIdx
          (extractSlice allDates allCloses startIdx endIdx short long).outputStartIdx ∧
    (extractSlice allDates allCloses startIdx endIdx short long).dates
      = (allDates.drop (max 0 (startIdx - (max short long - 1))).toNat).take
          (endIdx + 1 - max 0 (startIdx - (max short long - 1))).toNat ∧
    (extractSlice allDates allCloses startIdx endIdx short long).closes
      = (allCloses.drop (max 0 (startIdx - (max short long - 1))).toNat).take
          (endIdx + 1 - max 0 (startIdx - (max short long - 1))).toNat ∧
    (extractSlice allDates allCloses startIdx endIdx short long).outputStartIdx
      = startIdx - max 0 (startIdx - (max short long - 1)) ∧
    (startIdx ≤ endIdx → 1 ≤ max short long →
      0 ≤ (extractSlice allDates allCloses startIdx endIdx short long).outputStartIdx ∧
      (extractSlice allDates allCloses startIdx endIdx short long).dates[
          (extractSlice allDates allCloses startIdx endIdx short long).outputStartIdx.toNat]?
        = some startDate ∧
      (extractSlice allDates allCloses startIdx endIdx short long).closes[
          (extractSlice allDates allCloses startIdx endIdx short long).outputStartIdx.toNat]?
        = allCloses[startIdx.toNat]? ∧
      allDates[startIdx.toNat]? = some startDate) := by
  obtain ⟨-, -, h1, h2⟩ := findDateRange_spec allDates startDate endDate
  rw [hfind] at h1 h2
  obtain ⟨js, hjs, hjslt, hjsd⟩ := h1 hs
  obtain ⟨je, hje, hjelt, -⟩ := h2 he
  simp only at hjs hje
  have ha : (0 : Int) ≤ max 0 (startIdx - (max short long - 1)) := le_max_left _ _
  have hd : (extractSlice allDates allCloses startIdx endIdx short long).dates
      = (allDates.drop (max 0 (startIdx - (max short long - 1))).toNat).take
          (endIdx + 1 - max 0 (startIdx - (max short long - 1))).toNat :=
    slice_eq_drop_take allDates "" (max 0 (startIdx - (max short long - 1))) endIdx ha
      (by omega)
  have hc : (extractSlice allDates allCloses startIdx endIdx short long).closes
      = (allCloses.drop (max 0 (startIdx - (max short long - 1))).toNat).take
          (endIdx + 1 - max 0 (startIdx - (max short long - 1))).toNat :=
    slice_eq_drop_take allCloses 0 (max 0 (startIdx - (max short long - 1))) endIdx ha
      (by omega)
  refine ⟨rfl, hd, hc, rfl, fun hord hwin => ?_⟩
  have hoff : (extractSlice allDates allCloses startIdx endIdx short long).outputStartIdx
      = startIdx - max 0 (startIdx - (max short long - 1)) := rfl
  have hstart : allDates[startIdx.toNat]? = some startDate := by
    have e : startIdx.toNat = js := by omega
    rw [e, List.getElem?_eq_getElem hjslt, ← hjsd, List.getD_eq_getElem _ _ hjslt]
  have hpos : 0 ≤ startIdx - max 0 (startIdx - (max short long - 1)) := by omega
  have hk : (startIdx - max 0 (startIdx - (max short long - 1))).toNat
      < (endIdx + 1 - max 0 (startIdx - (max short long - 1))).toNat := by omega
  have hsum : (max 0 (startIdx - (max short long - 1))).toNat
      + (startIdx - max 0 (startIdx - (max short long - 1))).toNat = startIdx.toNat := by omega
  refine ⟨by rw [hoff]; exact hpos, ?_, ?_, hstart⟩
  · rw [hoff, hd, List.getElem?_take_of_lt hk, List.getElem?_drop, hsum]
    exact hstart
  · rw [hoff, hc, List.getElem?_take_of_lt hk, List.getElem?_drop, hsum]

/-- C13, amended, on the example series with evaluation from "1/4/2024" to
"1/9/2024" and windows 2 and 3: the sub-series starts two entries before index 3
and its entry at the live offset 2 is the start date. -/
theorem sweep_slice_witness :
    examplePrices.length = exampleDates.length ∧
    findDateRange exampleDates "1/4/2024" "1/9/2024" = (3, 8) ∧
    (extractSlice exampleDates examplePrices 3 8 2 3).dates
      = ["1/2/2024", "1/3/2024", "1/4/2024", "1/5/2024", "1/6/2024", "1/7/2024", "1/8/2024",
          "1/9/2024"] ∧
    (extractSlice exampleDates examplePrices 3 8 2 3).outputStartIdx = 2 ∧
    (extractSlice exampleDates examplePrices 3 8 2 3).dates[
        (extractSlice exampleDates examplePrices 3 8 2 3).outputStartIdx.toNat]?
      = some "1/4/2024" := by
  have h := sweep_slice exampleDates examplePrices "1/4/2024" "1/9/2024" 100 2 3 3 8
    (by decide) (by decide!) (by decide) (by decide)
  refine ⟨by decide, by decide!, ?_, ?_, (h.2.2.2.2 (by decide) (by decide)).2.1⟩
  · rw [h.2.1]; decide
  · rw [h.2.2.2.1]; decide

theorem extractSlice_lengths (allDates : List String) (allCloses : List ℚ)
    (startIdx endIdx short long : Int) :
    (extractSlice allDates allCloses startIdx endIdx short long).dates.length
      = (endIdx + 1 - max 0 (startIdx - (max short long - 1))).toNat ∧
    (extractSlice allDates allCloses startIdx endIdx short long).closes.length
      = (endIdx + 1 - max 0 (startIdx - (max short long - 1))).toNat := by
  constructor
  · show ((intRange _ endIdx).map _).length = _
    rw [List.length_map, length_intRange]
  · show ((intRange _ endIdx).map _).length = _
    rw [List.length_map, length_intRange]

/-- C18: the extended slice seeds both averages. For windows of at least one and
indices `startIdx ≤ endIdx` with `startIdx ≥ max(short, long) - 1`, in the call of
`backtest` the sweep makes,
every sub-series index `i` with `offset < i < length` has both moving-average
indices `i - (short - 1)` and `i - (long - 1)` at least 1 and inside their series,
so no live step other than the first is skipped. -/
theorem slice_seeds_averages (allDates : List String) (allCloses : List ℚ)
    (short long startIdx endIdx : Int) (hshort : 1 ≤ short) (hlong : 1 ≤ long)
    (hord : startIdx ≤ endIdx) (hhist : max short long - 1 ≤ startIdx) (i : Nat)
    (hoff : (extractSlice allDates allCloses startIdx endIdx short long).outputStartIdx < (i : Int))
    (hi : i < (extractSlice allDates allCloses startIdx endIdx short long).dates.length) :
    (1 ≤ (i : Int) - (short - 1) ∧
      (i : Int) - (short - 1) < ((computeMA
        (extractSlice allDates allCloses startIdx endIdx short long).closes short).length : Int)) ∧
    (1 ≤ (i : Int) - (long - 1) ∧
      (i : Int) - (long - 1) < ((computeMA
        (extractSlice allDates allCloses startIdx endIdx short long).closes long).length : Int)) ∧
    skipStep (computeMA (extractSlice allDates allCloses startIdx endIdx short long).closes short)
      (computeMA (extractSlice allDates allCloses startIdx endIdx short long).closes long)
      short long (extractSlice allDates allCloses startIdx endIdx short long).outputStartIdx i
      = false := by
  obtain ⟨hdl, hcl⟩ := extractSlice_lengths allDates allCloses startIdx endIdx short long
  have hoffv : (extractSlice allDates allCloses startIdx endIdx short long).outputStartIdx
      = startIdx - max 0 (startIdx - (max short long - 1)) := rfl
  rw [hoffv] at hoff
  rw [hdl] at hi
  have hs := computeMA_length_general
    (extractSlice allDates allCloses startIdx endIdx short long).closes short
  have hl := computeMA_length_general
    (extractSlice allDates allCloses startIdx endIdx short long).closes long
  rw [hcl] at hs hl
  have hsn : ¬ (short < 0 ∨
      (((endIdx + 1 - max 0 (startIdx - (max short long - 1))).toNat : Nat) : Int) < short) := by
    omega
  have hln : ¬ (long < 0 ∨
      (((endIdx + 1 - max 0 (startIdx - (max short long - 1))).toNat : Nat) : Int) < long) := by
    omega
  rw [if_neg hsn] at hs
  rw [if_neg hln] at hl
  have b1 : 1 ≤ (i : Int) - (short - 1) := by omega
  have b2 : (i : Int) - (short - 1) < ((computeMA
      (extractSlice allDates allCloses startIdx endIdx short long).closes short).length : Int) := by
    rw [hs]; omega
  have b3 : 1 ≤ (i : Int) - (long - 1) := by omega
  have b4 : (i : Int) - (long - 1) < ((computeMA
      (extractSlice allDates allCloses startIdx endIdx short long).closes long).length : Int) := by
    rw [hl]; omega
  refine ⟨⟨b1, b2⟩, ⟨b3, b4⟩, ?_⟩
  unfold skipStep
  simp only
  rw [hoffv]
  split_ifs with c1 c2
  · omega
  · omega
  · rfl

/-- C18 on the example series with evaluation from index 3 to index 8 and
windows 2 and 3: at sub-series index 3, after the live offset 2, the step is
evaluated. -/
theorem slice_seeds_averages_witness :
    (1 : Int) ≤ 2 ∧ (1 : Int) ≤ 3 ∧ (3 : Int) ≤ 8 ∧ max (2 : Int) 3 - 1 ≤ 3 ∧
    (extractSlice exampleDates examplePrices 3 8 2 3).outputStartIdx < ((3 : Nat) : Int) ∧
    3 < (extractSlice exampleDates examplePrices 3 8 2 3).dates.length ∧
    skipStep (computeMA (extractSlice exampleDates examplePrices 3 8 2 3).closes 2)
      (computeMA (extractSlice exampleDates examplePrices 3 8 2 3).closes 3)
      2 3 (extractSlice exampleDates examplePrices 3 8 2 3).outputStartIdx 3 = false :=
  ⟨by decide, by decide, by decide, by decide, by decide, by decide,
    (slice_seeds_averages exampleDates examplePrices 2 3 3 8 (by decide) (by decide)
      (by decide) (by decide) 3 (by decide) (by decide)).2.2⟩

end SMA
